import Mathlib

/-!
# Block-repetition visualiser (`aes-ecb-cmd.go`, `aes-ecb-descrypt.go`)

A shallow embedding of the pure part of `processImage`: the input bytes are cut
into 16-byte blocks, the blocks are counted and ranked by frequency, a palette
is generated, every distinct block gets a colour by rank, the block sequence is
replayed as a pixel sequence and the pixels are laid out on a near-square image.
The function `main` of `aes-ecb-descrypt.go`, which repeats the pipeline with a
fixed configuration, is embedded separately as `descrypt.main`.

Conventions of the embedding.

* A Go `int` that the user supplies (`colorsNeeded`, `pixWidth`) is an `Int`;
  lengths, indices and counts are `Nat`.  The product `len(blocks)*pixWidth`
  is computed as Go computes it on a 64-bit target, wrapped into the range of
  `int` (`wrap64`).  Lengths, indices, counts and the loop variable of the
  palette loop are bounded by the length of a slice held in memory, so the
  arithmetic on them does not wrap.
* A run-time panic of the Go program is a `Fault` returned through `Except`.
  `make([]color.Color, 0, cap)` panics with `makeslice: cap out of range`
  when `cap` is negative or when `cap` values of 16 bytes exceed the `maxAlloc`
  of the runtime (`capRefused`).  Exhaustion of the memory of the machine by an
  allocation below that limit ends the program with a fatal error of the
  runtime, not with a panic, and is not modelled: a result `Except.ok` of a
  stage stands for the run in which the memory was granted, and the theorems
  about a palette or a pixel sequence are stated for the case that the stage
  has built it.
* `range` over a Go map visits the entries in an order that changes from run to
  run and `sort.Slice` is not stable.  Both choices are explicit in a
  `Schedule`; `Schedule.Valid` states what Go guarantees about them.
* `int(math.Sqrt(float64(n)))` is modelled by the integer square root.
  `float64Sqrt` computes the expression on the 53-bit significand (`float64(n)`
  is exact below `2^53` and `math.Sqrt` is correctly rounded), and
  `float64Sqrt_eq_sqrt` shows that the two agree for every `n < 2^52`, which
  covers the length of every slice of colours that fits in memory.
-/

namespace AesEcb

/-! ## Data model -/

/-- One byte of the input file. -/
abbrev Byte := Fin 256

/-- A block is a slice of the input; as a map key it is `string(block)`, compared
by byte content. -/
abbrev Block := List Byte

/-- Run-time panics that the pure part of `processImage` can raise. -/
inductive Fault where
  | sliceBounds
  | capOutOfRange
  | indexRange
  | divideByZero
  deriving DecidableEq, Repr

/-- Equality of results is decidable, so that runs can be compared by evaluation. -/
instance instDecidableEqExcept {α : Type} [DecidableEq α] : DecidableEq (Except Fault α)
  | Except.ok a, Except.ok b =>
    if h : a = b then isTrue (congrArg Except.ok h)
    else isFalse (fun e => h (Except.ok.inj e))
  | Except.error a, Except.error b =>
    if h : a = b then isTrue (congrArg Except.error h)
    else isFalse (fun e => h (Except.error.inj e))
  | Except.ok _, Except.error _ => isFalse (fun e => Except.noConfusion e)
  | Except.error _, Except.ok _ => isFalse (fun e => Except.noConfusion e)

/-- The Go struct `color.RGBA`; every channel is a `uint8`. -/
structure RGBA where
  R : Nat
  G : Nat
  B : Nat
  A : Nat
  deriving DecidableEq, Repr

/-- The values of the interface `color.Color` that the program creates:
`color.Gray16` (for `color.White` and `color.Black`) and `color.RGBA`. -/
inductive Color where
  | gray16 (Y : Nat)
  | rgba (c : RGBA)
  deriving DecidableEq, Repr

/-- The Go value `color.White`, which is `Gray16{0xffff}`. -/
def color.White : Color := Color.gray16 0xffff

/-- The Go value `color.Black`, which is `Gray16{0}`. -/
def color.Black : Color := Color.gray16 0

/-- Conversion of a Go `int` to `uint8`. -/
def uint8 (n : Nat) : Nat := n % 256

/-- The conversion `color.RGBAModel.Convert` that `image.RGBA.Set` applies: an
`RGBA` value is kept, a `Gray16` value is spread over the three channels with
full alpha, each 16-bit channel reduced to its high byte. -/
def rgbaModel : Color → RGBA
  | Color.rgba c => c
  | Color.gray16 y => ⟨uint8 (y >>> 8), uint8 (y >>> 8), uint8 (y >>> 8), uint8 (0xffff >>> 8)⟩

/-- The local struct `BlockFrequencifier` of `processImage`. -/
structure BlockFrequencifier where
  BlockKey : Block
  Count : Nat
  deriving DecidableEq, Repr

/-- The constant `blockSize := 16`. -/
def blockSize : Nat := 16

/-- The constant `maxAlloc` of the Go runtime on a 64-bit target such as
linux/amd64: the largest size in bytes of one allocation, `1 << 48`. -/
def maxAlloc : Nat := 281474976710656

/-- The size in bytes of a value of the interface `color.Color`: two words. -/
def colorSize : Nat := 16

/-- The test of `makeslice` for `make([]color.Color, 0, cap)`: the capacity is
refused, with the panic `makeslice: cap out of range`, when it is negative or when
`cap` elements need more than `maxAlloc` bytes. -/
def capRefused (cap : Int) : Bool :=
  decide (cap < 0 ∨ cap * (colorSize : Int) > (maxAlloc : Int))

/-- The value of an arithmetic result as a Go `int` of 64 bits: wrapped into the
range from `-2^63` to `2^63 - 1`. -/
def wrap64 (n : Int) : Int :=
  (9223372036854775808 + n) % 18446744073709551616 - 9223372036854775808

/-! ## Block segmentation (lines 55-61) -/

/-- The reslice `bytes[:len(bytes)-(len(bytes)%blockSize)]`. -/
def truncateBytes (bytes : List Byte) : List Byte :=
  bytes.take (bytes.length - bytes.length % blockSize)

/-- The slice expression `bytes[lo:hi]`; out of range bounds panic.  The bound is
checked against the length, which never exceeds the capacity Go checks. -/
def sliceBytes (bytes : List Byte) (lo hi : Nat) : Except Fault Block :=
  if lo ≤ hi ∧ hi ≤ bytes.length then Except.ok ((bytes.take hi).drop lo)
  else Except.error Fault.sliceBounds

/-- The values of `i` in `for i := 0; i < n; i += blockSize`. -/
def blockStarts (n : Nat) : List Nat :=
  List.range' 0 ((n + blockSize - 1) / blockSize) blockSize

/-- Body of the segmentation loop, run for the given values of `i`. -/
def blocksLoop (bytes : List Byte) : List Nat → Except Fault (List Block)
  | [] => Except.ok []
  | i :: rest =>
    match sliceBytes bytes i (i + blockSize) with
    | Except.error e => Except.error e
    | Except.ok block =>
      match blocksLoop bytes rest with
      | Except.error e => Except.error e
      | Except.ok blocks => Except.ok (block :: blocks)

/-- The slice `blocks` of `processImage`, computed from the bytes read. -/
def blocks (bytes : List Byte) : Except Fault (List Block) :=
  blocksLoop (truncateBytes bytes) (blockStarts (truncateBytes bytes).length)

/-! ## Frequency table and ranking (lines 63-80) -/

/-- The statement `blockCounts[blockKey]++` on a map kept as an association list
with one pair per key: a missing key reads as zero. -/
def increment (blockKey : Block) : List (Block × Nat) → List (Block × Nat)
  | [] => [(blockKey, 1)]
  | (k, v) :: m =>
    if k = blockKey then (k, v + 1) :: m else (k, v) :: increment blockKey m

/-- The map `blockCounts` after the counting loop. -/
def blockCounts (blocks : List Block) : List (Block × Nat) :=
  blocks.foldl (fun m block => increment block m) []

/-- The comparison passed to `sort.Slice`. -/
def less (a b : BlockFrequencifier) : Bool := decide (a.Count > b.Count)

/-- The two choices Go leaves open: the order in which `range blockCounts`
visits the map and the outcome of the unstable `sort.Slice`. -/
structure Schedule where
  rangeOrder : List (Block × Nat) → List (Block × Nat)
  sortSlice : List BlockFrequencifier → List BlockFrequencifier

/-- What Go guarantees about a schedule: `range` visits every entry of the map
exactly once, and `sort.Slice` permutes its argument so that no later element is
`less` than an earlier one. -/
structure Schedule.Valid (s : Schedule) : Prop where
  range_perm : ∀ m, (s.rangeOrder m).Perm m
  sort_perm : ∀ l, (s.sortSlice l).Perm l
  sort_sorted : ∀ l, (s.sortSlice l).Pairwise (fun a b => less b a = false)

/-- The slice `blockFrequencies` before sorting: one entry per map pair, in the
order `range` visits them. -/
def frequencyEntries (s : Schedule) (blocks : List Block) : List BlockFrequencifier :=
  (s.rangeOrder (blockCounts blocks)).map (fun kv => ⟨kv.1, kv.2⟩)

/-- The slice `blockFrequencies` after `sort.Slice`: the ranked list. -/
def blockFrequencies (s : Schedule) (blocks : List Block) : List BlockFrequencifier :=
  s.sortSlice (frequencyEntries s blocks)

/-- A schedule in which `range` visits the keys in first-seen order and the sort
is a stable insertion sort. -/
def firstSeen : Schedule where
  rangeOrder := fun m => m
  sortSlice := fun l => List.insertionSort (fun a b => a.Count ≥ b.Count) l

/-- A schedule in which `range` visits the keys in last-seen order and the sort
is a stable insertion sort. -/
def lastSeen : Schedule where
  rangeOrder := fun m => m.reverse
  sortSlice := fun l => List.insertionSort (fun a b => a.Count ≥ b.Count) l

/-! ## Palette (lines 82-95) -/

/-- The colour generated in the palette loop for loop variable `i`. -/
def generated (i : Nat) : Color :=
  Color.rgba ⟨uint8 ((i * 50) % 255), uint8 ((i * 80) % 255), uint8 ((i * 110) % 255), 255⟩

/-- The appends that fill `palette`: white, one generated colour for every `i`
of `for i := 1; i < colorsNeeded-1; i++`, black. -/
def paletteEntries (colorsNeeded : Int) : List Color :=
  [color.White] ++ (List.range' 1 (colorsNeeded - 1 - 1).toNat).map generated ++ [color.Black]

/-- The slice `palette`: `make([]color.Color, 0, colorsNeeded)` panics when it
refuses the capacity, otherwise the appends follow. -/
def palette (colorsNeeded : Int) : Except Fault (List Color) :=
  if capRefused colorsNeeded = true then Except.error Fault.capOutOfRange
  else Except.ok (paletteEntries colorsNeeded)

/-! ## Colour assignment (lines 98-106) -/

/-- The statement `colorMap[key] = clr` on an association list. -/
def mapSet (key : Block) (clr : Color) : List (Block × Color) → List (Block × Color)
  | [] => [(key, clr)]
  | (k, v) :: m => if k = key then (k, clr) :: m else (k, v) :: mapSet key clr m

/-- The lookup `clr, exists := colorMap[key]`: `none` when the key is absent. -/
def mapGet (key : Block) : List (Block × Color) → Option Color
  | [] => none
  | (k, v) :: m => if k = key then some v else mapGet key m

/-- An index expression `palette[i]`. -/
def index (palette : List Color) (i : Nat) : Except Fault Color :=
  match palette[i]? with
  | some clr => Except.ok clr
  | none => Except.error Fault.indexRange

/-- The colour `clr` chosen for rank `i` in the body of the assignment loop. -/
def rankColor (colorsNeeded : Int) (palette : List Color) (i : Nat) : Except Fault Color :=
  if (i : Int) < colorsNeeded - 1 then index palette i
  else index palette (palette.length - 1)

/-- The loop `for i, bf := range blockFrequencies` that fills `colorMap`, from
rank `i` on. -/
def colorMapLoop (colorsNeeded : Int) (palette : List Color) :
    Nat → List BlockFrequencifier → List (Block × Color) → Except Fault (List (Block × Color))
  | _, [], colorMap => Except.ok colorMap
  | i, bf :: rest, colorMap =>
    match rankColor colorsNeeded palette i with
    | Except.error e => Except.error e
    | Except.ok clr => colorMapLoop colorsNeeded palette (i + 1) rest (mapSet bf.BlockKey clr colorMap)

/-- The map `colorMap` after the assignment loop. -/
def colorMap (colorsNeeded : Int) (palette : List Color) (ranked : List BlockFrequencifier) :
    Except Fault (List (Block × Color)) :=
  colorMapLoop colorsNeeded palette 0 ranked []

/-! ## Pixel expansion (lines 109-119) -/

/-- The colour looked up for a block, black when the key is absent. -/
def lookupColor (colorMap : List (Block × Color)) (block : Block) : Color :=
  match mapGet block colorMap with
  | some clr => clr
  | none => color.Black

/-- The loop `for _, block := range blocks` that appends the pixels; the bound
`blockSize/pixWidth` of the inner loop divides by `pixWidth`. -/
def pixelLoop (colorMap : List (Block × Color)) (pixWidth : Int) :
    List Block → Except Fault (List Color)
  | [] => Except.ok []
  | block :: rest =>
    if pixWidth = 0 then Except.error Fault.divideByZero
    else
      match pixelLoop colorMap pixWidth rest with
      | Except.error e => Except.error e
      | Except.ok pixels =>
        Except.ok (List.replicate (Int.tdiv (blockSize : Int) pixWidth).toNat
          (lookupColor colorMap block) ++ pixels)

/-- The slice `pixelData`: `make([]color.Color, 0, len(blocks)*pixWidth)` panics
when it refuses the capacity, which is the product as a 64-bit `int`; otherwise the
loop follows. -/
def pixelData (blocks : List Block) (colorMap : List (Block × Color)) (pixWidth : Int) :
    Except Fault (List Color) :=
  if capRefused (wrap64 ((blocks.length : Int) * pixWidth)) = true then
    Except.error Fault.capOutOfRange
  else pixelLoop colorMap pixWidth blocks

/-! ## Image dimensions (lines 122-128) -/

/-- The integer nearest to the square root of `N`: the floor of the root, or one
more when `N` lies above the midpoint `(r + 1/2)^2`, that is above `r^2 + r`. -/
def roundSqrt (N : Nat) : Nat :=
  if N - Nat.sqrt N * Nat.sqrt N ≤ Nat.sqrt N then Nat.sqrt N else Nat.sqrt N + 1

/-- The expression `int(math.Sqrt(float64(n)))` for `n < 2^53`, computed as IEEE 754
does: with `e = log2 (sqrt n)` the root is rounded to the nearest multiple of
`2^(e-52)`, the unit of a 53-bit significand, and `int` drops the fraction. -/
def float64Sqrt (n : Nat) : Nat :=
  roundSqrt (n * 4 ^ (52 - Nat.log2 (Nat.sqrt n))) / 2 ^ (52 - Nat.log2 (Nat.sqrt n))

/-- The value `width := int(math.Sqrt(float64(totalPixels)))`, which is the integer
square root for every length below `2^52` (see `float64Sqrt_eq_sqrt`). -/
def width (totalPixels : Nat) : Nat := Nat.sqrt totalPixels

/-- The value `height`: `totalPixels / width`, one more when the division leaves a
remainder; the division panics when `width` is zero. -/
def height (totalPixels : Nat) : Except Fault Nat :=
  if width totalPixels = 0 then Except.error Fault.divideByZero
  else if totalPixels % width totalPixels ≠ 0 then Except.ok (totalPixels / width totalPixels + 1)
  else Except.ok (totalPixels / width totalPixels)

/-! ## Canvas (lines 130-142) -/

/-- An `image.RGBA` with bounds `image.Rect(0, 0, width, height)`, kept as its
list of rows from `y = 0` on. -/
structure Image where
  width : Nat
  height : Nat
  rows : List (List RGBA)
  deriving DecidableEq, Repr

/-- The zero value of a pixel of a fresh image. -/
def unset : RGBA := ⟨0, 0, 0, 0⟩

/-- The call `image.NewRGBA(image.Rect(0, 0, width, height))`. -/
def NewRGBA (width height : Nat) : Image :=
  ⟨width, height, List.replicate height (List.replicate width unset)⟩

/-- The method `img.Set(x, y, clr)`: a point outside the bounds is ignored. -/
def Image.Set (img : Image) (x y : Int) (clr : Color) : Image :=
  if 0 ≤ x ∧ x < img.width ∧ 0 ≤ y ∧ y < img.height then
    ⟨img.width, img.height,
      img.rows.set y.toNat ((img.rows.getD y.toNat []).set x.toNat (rgbaModel clr))⟩
  else img

/-- The pixel of an image at column `x`, row `y`. -/
def Image.At (img : Image) (x y : Nat) : Option RGBA :=
  match img.rows[y]? with
  | some row => row[x]?
  | none => none

/-- The loop `for idx, clr := range pixelData` that draws the pixels, from index
`idx` on. -/
def drawLoop (width height : Nat) (flip : Bool) : Nat → List Color → Image → Image
  | _, [], img => img
  | idx, clr :: rest, img =>
    let x : Int := ((idx % width : Nat) : Int)
    let y : Int := ((idx / width : Nat) : Int)
    let y : Int := if flip then (height : Int) - y - 1 else y
    if y ≥ (height : Int) then img
    else drawLoop width height flip (idx + 1) rest (img.Set x y clr)

/-- The image `img` after the drawing loop. -/
def render (pixelData : List Color) (width height : Nat) (flip : Bool) : Image :=
  drawLoop width height flip 0 pixelData (NewRGBA width height)

/-- The image with its rows in reverse order: row `y` exchanged with row
`height - 1 - y`. -/
def Image.reverseRows (img : Image) : Image :=
  ⟨img.width, img.height, img.rows.reverse⟩

/-! ## The pipeline -/

/-- The slice `pixelData` that `processImage` computes from the bytes read. -/
def pixels (s : Schedule) (bytes : List Byte) (colorsNeeded : Int) (pixWidth : Int) :
    Except Fault (List Color) :=
  match blocks bytes with
  | Except.error e => Except.error e
  | Except.ok bs =>
    match palette colorsNeeded with
    | Except.error e => Except.error e
    | Except.ok pal =>
      match colorMap colorsNeeded pal (blockFrequencies s bs) with
      | Except.error e => Except.error e
      | Except.ok cm => pixelData bs cm pixWidth

/-- The pure part of `processImage`: from the bytes read to the image handed to
the PNG encoder. -/
def processImage (s : Schedule) (bytes : List Byte) (colorsNeeded : Int) (flip : Bool)
    (pixWidth : Int) : Except Fault Image :=
  match pixels s bytes colorsNeeded pixWidth with
  | Except.error e => Except.error e
  | Except.ok px =>
    match height px.length with
    | Except.error e => Except.error e
    | Except.ok h => Except.ok (render px (width px.length) h flip)


/-! ## The hard-coded entry point (`aes-ecb-descrypt.go`, lines 15-116)

The function `main` of the second file repeats the pipeline with its configuration
in local variables.  It is embedded on its own, statement by statement, under the
names of that file; the operations of the language and of the libraries (slices,
maps, `color`, `image`) are the ones above. -/

/-- The local `colors_needed := 254`. -/
def descrypt.colors_needed : Int := 254

/-- The local `flip := true`. -/
def descrypt.flip : Bool := true

/-- The local `pix_width := 16`. -/
def descrypt.pix_width : Int := 16

/-- The local `block_size := 16`. -/
def descrypt.block_size : Nat := 16

/-- Body of the loop of lines 31-34, run for the given values of `i`. -/
def descrypt.blocksLoop (bytes : List Byte) : List Nat → Except Fault (List Block)
  | [] => Except.ok []
  | i :: rest =>
    match sliceBytes bytes i (i + descrypt.block_size) with
    | Except.error e => Except.error e
    | Except.ok block =>
      match descrypt.blocksLoop bytes rest with
      | Except.error e => Except.error e
      | Except.ok blocks => Except.ok (block :: blocks)

/-- The slice `blocks` of lines 28-34: the reslice to a multiple of `block_size` and
the loop `for i := 0; i < len(bytes); i += block_size`. -/
def descrypt.blocks (bytes : List Byte) : Except Fault (List Block) :=
  descrypt.blocksLoop (bytes.take (bytes.length - bytes.length % descrypt.block_size))
    (List.range' 0
      (((bytes.take (bytes.length - bytes.length % descrypt.block_size)).length
        + descrypt.block_size - 1) / descrypt.block_size)
      descrypt.block_size)

/-- The map `block_counts` of lines 36-40. -/
def descrypt.block_counts (blocks : List Block) : List (Block × Nat) :=
  blocks.foldl (fun m block => increment block m) []

/-- The slice `block_frequencies` of lines 47-53, after `sort.Slice` with the
comparison `Count > Count`. -/
def descrypt.block_frequencies (s : Schedule) (blocks : List Block) : List BlockFrequencifier :=
  s.sortSlice ((s.rangeOrder (descrypt.block_counts blocks)).map (fun kv => ⟨kv.1, kv.2⟩))

/-- The slice `palette` of lines 56-69. -/
def descrypt.palette : Except Fault (List Color) :=
  if capRefused descrypt.colors_needed = true then Except.error Fault.capOutOfRange
  else Except.ok ([color.White]
    ++ (List.range' 1 (descrypt.colors_needed - 1 - 1).toNat).map (fun i =>
        Color.rgba ⟨uint8 ((i * 50) % 255), uint8 ((i * 80) % 255), uint8 ((i * 110) % 255), 255⟩)
    ++ [color.Black])

/-- The colour `clr` chosen for rank `i` in lines 73-78, for the value of the local
`colors_needed`. -/
def descrypt.rankColor (colors_needed : Int) (palette : List Color) (i : Nat) :
    Except Fault Color :=
  if (i : Int) < colors_needed - 1 then index palette i
  else index palette (palette.length - 1)

/-- The loop of lines 72-80 that fills `colorMap`, from rank `i` on, for the value of
the local `colors_needed`. -/
def descrypt.colorMapLoop (colors_needed : Int) (palette : List Color) :
    Nat → List BlockFrequencifier → List (Block × Color) → Except Fault (List (Block × Color))
  | _, [], colorMap => Except.ok colorMap
  | i, bf :: rest, colorMap =>
    match descrypt.rankColor colors_needed palette i with
    | Except.error e => Except.error e
    | Except.ok clr =>
      descrypt.colorMapLoop colors_needed palette (i + 1) rest (mapSet bf.BlockKey clr colorMap)

/-- The loop of lines 84-93 that appends the pixels. -/
def descrypt.pixelLoop (colorMap : List (Block × Color)) : List Block → Except Fault (List Color)
  | [] => Except.ok []
  | block :: rest =>
    if descrypt.pix_width = 0 then Except.error Fault.divideByZero
    else
      match descrypt.pixelLoop colorMap rest with
      | Except.error e => Except.error e
      | Except.ok pixels =>
        Except.ok (List.replicate
          (Int.tdiv (descrypt.block_size : Int) descrypt.pix_width).toNat
          (match mapGet block colorMap with
            | some clr => clr
            | none => color.Black) ++ pixels)

/-- The slice `pixelData` of lines 83-93. -/
def descrypt.pixelData (blocks : List Block) (colorMap : List (Block × Color)) :
    Except Fault (List Color) :=
  if capRefused (wrap64 ((blocks.length : Int) * descrypt.pix_width)) = true then
    Except.error Fault.capOutOfRange
  else descrypt.pixelLoop colorMap blocks

/-- The loop of lines 106-116 that draws the pixels, from index `idx` on. -/
def descrypt.drawLoop (width height : Nat) : Nat → List Color → Image → Image
  | _, [], img => img
  | idx, clr :: rest, img =>
    let x : Int := ((idx % width : Nat) : Int)
    let y : Int := ((idx / width : Nat) : Int)
    let y : Int := if descrypt.flip then (height : Int) - y - 1 else y
    if y ≥ (height : Int) then img
    else descrypt.drawLoop width height (idx + 1) rest (img.Set x y clr)

/-- The dimensions and the drawing of lines 96-116, for the pixel sequence. -/
def descrypt.canvas (pixelData : List Color) : Except Fault Image :=
  if Nat.sqrt pixelData.length = 0 then Except.error Fault.divideByZero
  else if pixelData.length % Nat.sqrt pixelData.length ≠ 0 then
    Except.ok (descrypt.drawLoop (Nat.sqrt pixelData.length)
      (pixelData.length / Nat.sqrt pixelData.length + 1) 0 pixelData
      (NewRGBA (Nat.sqrt pixelData.length) (pixelData.length / Nat.sqrt pixelData.length + 1)))
  else
    Except.ok (descrypt.drawLoop (Nat.sqrt pixelData.length)
      (pixelData.length / Nat.sqrt pixelData.length) 0 pixelData
      (NewRGBA (Nat.sqrt pixelData.length) (pixelData.length / Nat.sqrt pixelData.length)))

/-- The pure part of `main` of `aes-ecb-descrypt.go`: from the bytes read to the image
handed to the PNG encoder. -/
def descrypt.main (s : Schedule) (bytes : List Byte) : Except Fault Image :=
  match descrypt.blocks bytes with
  | Except.error e => Except.error e
  | Except.ok blocks =>
    match descrypt.palette with
    | Except.error e => Except.error e
    | Except.ok palette =>
      match descrypt.colorMapLoop descrypt.colors_needed palette 0
          (descrypt.block_frequencies s blocks) [] with
      | Except.error e => Except.error e
      | Except.ok colorMap =>
        match descrypt.pixelData blocks colorMap with
        | Except.error e => Except.error e
        | Except.ok pixelData => descrypt.canvas pixelData

/-! # Theorems

## Segmentation is lossless up to the remainder -/

theorem length_truncateBytes (bytes : List Byte) :
    (truncateBytes bytes).length = blockSize * (bytes.length / blockSize) := by
  unfold truncateBytes
  rw [List.length_take]
  have h := Nat.div_add_mod bytes.length blockSize
  have h2 : bytes.length % blockSize ≤ bytes.length := Nat.mod_le _ _
  omega

theorem truncateBytes_eq (bytes : List Byte) :
    truncateBytes bytes = bytes.take (blockSize * (bytes.length / blockSize)) := by
  unfold truncateBytes
  have h := Nat.div_add_mod bytes.length blockSize
  have h2 : bytes.length - bytes.length % blockSize = blockSize * (bytes.length / blockSize) := by
    omega
  rw [h2]

theorem blockStarts_mul (q : Nat) :
    blockStarts (blockSize * q) = List.range' 0 q blockSize := by
  unfold blockStarts
  have h : (blockSize * q + blockSize - 1) / blockSize = q := by
    unfold blockSize
    omega
  rw [h]

/-- Cutting `n` consecutive blocks from offset `i` succeeds when they fit, and the
blocks are the bytes from `i` to `i + blockSize * n` in order. -/
theorem blocksLoop_range (t : List Byte) :
    ∀ (n i : Nat), i + blockSize * n ≤ t.length →
      ∃ bs, blocksLoop t (List.range' i n blockSize) = Except.ok bs ∧ bs.length = n ∧
        (∀ b ∈ bs, b.length = blockSize) ∧
        bs.flatten = (t.take (i + blockSize * n)).drop i := by
  intro n
  induction n with
  | zero =>
    intro i _
    refine ⟨[], rfl, rfl, ?_, ?_⟩
    · intro b hb
      cases hb
    · simp
  | succ n ih =>
    intro i hi
    have hfit : i + blockSize ≤ t.length := by
      have : blockSize * (n + 1) = blockSize * n + blockSize := by ring
      omega
    obtain ⟨bs, hbs, hlen, hall, hflat⟩ := ih (i + blockSize) (by
      have : blockSize * (n + 1) = blockSize * n + blockSize := by ring
      omega)
    refine ⟨(t.take (i + blockSize)).drop i :: bs, ?_, ?_, ?_, ?_⟩
    · rw [List.range'_succ]
      simp only [blocksLoop, sliceBytes]
      rw [if_pos ⟨Nat.le_add_right _ _, hfit⟩]
      simp only [hbs]
    · simp [hlen]
    · intro b hb
      rcases List.mem_cons.mp hb with h | h
      · subst h
        rw [List.length_drop, List.length_take]
        omega
      · exact hall b h
    · rw [List.flatten_cons, hflat]
      have e : i + blockSize * (n + 1) = (i + blockSize) + blockSize * n := by ring
      rw [e, List.take_add t (i + blockSize) (blockSize * n)]
      rw [List.drop_append_of_le_length (by rw [List.length_take]; omega)]
      rw [List.drop_append_of_le_length (by rw [List.length_take]; omega)]
      have hl : (List.take (i + blockSize) t).length = i + blockSize := by
        rw [List.length_take]; omega
      have : List.drop (i + blockSize) (List.take (i + blockSize) t) = [] := by
        apply List.drop_of_length_le
        omega
      rw [this]
      simp

/-- C4. For every input buffer the segmenter succeeds and yields exactly
`len / 16` blocks, each of 16 bytes, whose concatenation in order is the first
`16 * (len / 16)` bytes of the input: the trailing remainder is dropped and nothing
is reordered. -/
theorem blocks_segmentation (bytes : List Byte) :
    ∃ bs, blocks bytes = Except.ok bs ∧ bs.length = bytes.length / 16 ∧
      (∀ b ∈ bs, b.length = 16) ∧
      bs.flatten = bytes.take (16 * (bytes.length / 16)) := by
  have hlen := length_truncateBytes bytes
  obtain ⟨bs, hbs, hl, hall, hflat⟩ :=
    blocksLoop_range (truncateBytes bytes) (bytes.length / blockSize) 0 (by omega)
  refine ⟨bs, ?_, hl, hall, ?_⟩
  · unfold blocks
    rw [hlen, blockStarts_mul]
    exact hbs
  · rw [hflat, truncateBytes_eq]
    simp [blockSize]


/-! ## Invariant of the counting loop -/

theorem blockCounts_append (bs : List Block) (b : Block) :
    blockCounts (bs ++ [b]) = increment b (blockCounts bs) := by
  simp [blockCounts, List.foldl_append]

theorem keys_increment (b : Block) (m : List (Block × Nat)) :
    (increment b m).map Prod.fst =
      m.map Prod.fst ++ (if b ∈ m.map Prod.fst then [] else [b]) := by
  induction m with
  | nil => simp [increment]
  | cons kv m ih =>
    obtain ⟨k, v⟩ := kv
    by_cases hk : k = b
    · subst hk
      simp [increment]
    · have hk2 : ¬ b = k := fun h => hk h.symm
      simp only [increment, if_neg hk, List.map_cons, ih, List.mem_cons, hk2, false_or,
        List.cons_append]

theorem sum_increment (b : Block) (m : List (Block × Nat)) :
    ((increment b m).map Prod.snd).sum = (m.map Prod.snd).sum + 1 := by
  induction m with
  | nil => simp [increment]
  | cons kv m ih =>
    obtain ⟨k, v⟩ := kv
    by_cases hk : k = b
    · simp [increment, hk]
      omega
    · simp [increment, hk, ih]
      omega

theorem mem_increment (b : Block) (m : List (Block × Nat)) (hnd : (m.map Prod.fst).Nodup)
    (k : Block) (v : Nat) (h : (k, v) ∈ increment b m) :
    (k ≠ b ∧ (k, v) ∈ m) ∨
      (k = b ∧ ((∃ v0, (b, v0) ∈ m ∧ v = v0 + 1) ∨ (b ∉ m.map Prod.fst ∧ v = 1))) := by
  induction m with
  | nil =>
    simp [increment] at h
    right
    exact ⟨h.1, Or.inr ⟨by simp, h.2⟩⟩
  | cons kv m ih =>
    obtain ⟨k0, v0⟩ := kv
    rw [List.map_cons, List.nodup_cons] at hnd
    by_cases hk : k0 = b
    · subst hk
      simp only [increment, if_true, List.mem_cons, Prod.mk.injEq] at h
      rcases h with ⟨h1, h2⟩ | h
      · right
        exact ⟨h1, Or.inl ⟨v0, by simp, h2⟩⟩
      · left
        refine ⟨?_, by simp [h]⟩
        intro hkb
        apply hnd.1
        rw [← hkb]
        exact List.mem_map.mpr ⟨(k, v), h, rfl⟩
    · simp only [increment, if_neg hk, List.mem_cons, Prod.mk.injEq] at h
      rcases h with ⟨h1, h2⟩ | h
      · left
        subst h1 h2
        exact ⟨hk, by simp⟩
      · rcases ih hnd.2 h with ⟨h1, h2⟩ | ⟨h1, h2⟩
        · left
          exact ⟨h1, by simp [h2]⟩
        · right
          refine ⟨h1, ?_⟩
          rcases h2 with ⟨w, hw, hv⟩ | ⟨hb, hv⟩
          · exact Or.inl ⟨w, by simp [hw], hv⟩
          · refine Or.inr ⟨?_, hv⟩
            simp only [List.map_cons, List.mem_cons, not_or]
            exact ⟨fun e => hk e.symm, hb⟩

/-- The invariant of the counting loop: one pair per distinct block seen so far,
holding the number of its occurrences. -/
theorem blockCounts_spec (bs : List Block) :
    ((blockCounts bs).map Prod.fst).Nodup ∧
      (∀ k, k ∈ (blockCounts bs).map Prod.fst ↔ k ∈ bs) ∧
      (∀ k v, (k, v) ∈ blockCounts bs → v = bs.count k) ∧
      ((blockCounts bs).map Prod.snd).sum = bs.length := by
  induction bs using List.reverseRecOn with
  | nil => simp [blockCounts]
  | append_singleton bs b ih =>
    obtain ⟨hnd, hkeys, hcnt, hsum⟩ := ih
    rw [blockCounts_append]
    refine ⟨?_, ?_, ?_, ?_⟩
    · rw [keys_increment]
      by_cases hb : b ∈ (blockCounts bs).map Prod.fst
      · simpa [hb] using hnd
      · rw [if_neg hb]
        rw [List.nodup_append]
        refine ⟨hnd, List.nodup_singleton b, ?_⟩
        intro x hx hx2
        rw [List.mem_singleton] at hx2
        subst hx2
        exact hb hx
    · intro k
      rw [keys_increment, List.mem_append, hkeys, List.mem_append, List.mem_singleton]
      by_cases hb : b ∈ (blockCounts bs).map Prod.fst
      · rw [if_pos hb]
        have hb2 : b ∈ bs := (hkeys b).mp hb
        constructor
        · rintro (h | h)
          · exact Or.inl h
          · cases h
        · rintro (h | h)
          · exact Or.inl h
          · subst h
            exact Or.inl hb2
      · rw [if_neg hb, List.mem_singleton]
    · intro k v hkv
      rw [List.count_append]
      rcases mem_increment b _ hnd k v hkv with ⟨h1, h2⟩ | ⟨h1, h2⟩
      · rw [hcnt k v h2]
        simp [List.count_singleton, h1]
      · subst h1
        rcases h2 with ⟨w, hw, hv⟩ | ⟨hb, hv⟩
        · rw [hv, hcnt k w hw]
          simp
        · have : k ∉ bs := fun h => hb ((hkeys k).mpr h)
          rw [hv, List.count_eq_zero_of_not_mem this]
          simp
    · rw [sum_increment, hsum]
      simp


/-! ## Schedules and the ranked list -/

theorem insertionSort_valid (l : List BlockFrequencifier) :
    (List.insertionSort (fun a b => a.Count ≥ b.Count) l).Perm l ∧
      (List.insertionSort (fun a b => a.Count ≥ b.Count) l).Pairwise
        (fun a b => less b a = false) := by
  refine ⟨List.perm_insertionSort _ l, ?_⟩
  haveI : IsTotal BlockFrequencifier (fun a b => a.Count ≥ b.Count) :=
    ⟨fun a b => Nat.le_total b.Count a.Count⟩
  haveI : IsTrans BlockFrequencifier (fun a b => a.Count ≥ b.Count) :=
    ⟨fun a b c hab hbc => Nat.le_trans hbc hab⟩
  have h := List.sorted_insertionSort (fun a b : BlockFrequencifier => a.Count ≥ b.Count) l
  refine List.Pairwise.imp ?_ h
  intro a b hab
  simp only [less, decide_eq_false_iff_not, not_lt]
  exact hab

theorem firstSeen_valid : firstSeen.Valid where
  range_perm := fun m => List.Perm.refl m
  sort_perm := fun l => (insertionSort_valid l).1
  sort_sorted := fun l => (insertionSort_valid l).2

theorem lastSeen_valid : lastSeen.Valid where
  range_perm := fun m => List.reverse_perm m
  sort_perm := fun l => (insertionSort_valid l).1
  sort_sorted := fun l => (insertionSort_valid l).2

theorem frequencyEntries_perm (s : Schedule) (hs : s.Valid) (bs : List Block) :
    (frequencyEntries s bs).Perm
      ((blockCounts bs).map (fun kv => (⟨kv.1, kv.2⟩ : BlockFrequencifier))) :=
  (hs.range_perm (blockCounts bs)).map _

theorem blockFrequencies_perm (s : Schedule) (hs : s.Valid) (bs : List Block) :
    (blockFrequencies s bs).Perm
      ((blockCounts bs).map (fun kv => (⟨kv.1, kv.2⟩ : BlockFrequencifier))) :=
  (hs.sort_perm _).trans (frequencyEntries_perm s hs bs)

/-- Every list holding the pairs of `blockCounts` in some order has one entry per
distinct block, with the number of its occurrences. -/
theorem entries_spec (bs : List Block) (l : List BlockFrequencifier)
    (hl : l.Perm ((blockCounts bs).map (fun kv => (⟨kv.1, kv.2⟩ : BlockFrequencifier)))) :
    (l.map (fun e => e.BlockKey)).Nodup ∧
      (∀ b, b ∈ l.map (fun e => e.BlockKey) ↔ b ∈ bs) ∧
      (∀ e ∈ l, e.Count = bs.count e.BlockKey) ∧
      (l.map (fun e => e.Count)).sum = bs.length := by
  obtain ⟨hnd, hkeys, hcnt, hsum⟩ := blockCounts_spec bs
  have hk : (l.map (fun e => e.BlockKey)).Perm ((blockCounts bs).map Prod.fst) := by
    have := hl.map (fun e => e.BlockKey)
    simpa [List.map_map, Function.comp_def] using this
  have hc : (l.map (fun e => e.Count)).Perm ((blockCounts bs).map Prod.snd) := by
    have := hl.map (fun e => e.Count)
    simpa [List.map_map, Function.comp_def] using this
  refine ⟨hk.nodup_iff.mpr hnd, ?_, ?_, ?_⟩
  · intro b
    rw [hk.mem_iff, hkeys]
  · intro e he
    have he2 := hl.mem_iff.mp he
    obtain ⟨kv, hkv, rfl⟩ := List.mem_map.mp he2
    exact hcnt kv.1 kv.2 hkv
  · rw [hc.sum_eq, hsum]

/-- C5. In the list of frequency entries, before and after sorting, every distinct
block of the sequence occurs exactly once (and no other block occurs), the count of
an entry is the number of positions of the sequence holding its block, and the
counts sum to the length of the sequence. -/
theorem frequency_conservation (s : Schedule) (hs : s.Valid) (bs : List Block) :
    ∀ l ∈ [frequencyEntries s bs, blockFrequencies s bs],
      (∀ b, (l.map (fun e => e.BlockKey)).count b = if b ∈ bs then 1 else 0) ∧
      (∀ e ∈ l, e.Count = bs.count e.BlockKey) ∧
      (l.map (fun e => e.Count)).sum = bs.length := by
  intro l hl
  have hperm : l.Perm ((blockCounts bs).map (fun kv => (⟨kv.1, kv.2⟩ : BlockFrequencifier))) := by
    simp only [List.mem_cons, List.mem_singleton, List.not_mem_nil, or_false] at hl
    rcases hl with h | h
    · rw [h]; exact frequencyEntries_perm s hs bs
    · rw [h]; exact blockFrequencies_perm s hs bs
  obtain ⟨hnd, hkeys, hcnt, hsum⟩ := entries_spec bs l hperm
  refine ⟨?_, hcnt, hsum⟩
  intro b
  by_cases hb : b ∈ bs
  · rw [if_pos hb]
    have h := List.count_eq_one_of_mem hnd ((hkeys b).mpr hb)
    rw [← h]
    congr 1
    exact lawful_beq_subsingleton _ _
  · rw [if_neg hb]
    exact List.count_eq_zero_of_not_mem (fun h => hb ((hkeys b).mp h))

/-- Witness of C5: three blocks, two of them equal, under the first-seen
schedule. -/
theorem frequency_conservation_witness :
    firstSeen.Valid ∧
    ∀ l ∈ [frequencyEntries firstSeen [[0], [1], [0]], blockFrequencies firstSeen [[0], [1], [0]]],
      (∀ b, (l.map (fun e => e.BlockKey)).count b = if b ∈ [[0], [1], [0]] then 1 else 0) ∧
      (∀ e ∈ l, e.Count = ([[0], [1], [0]] : List Block).count e.BlockKey) ∧
      (l.map (fun e => e.Count)).sum = ([[0], [1], [0]] : List Block).length :=
  ⟨firstSeen_valid, frequency_conservation firstSeen firstSeen_valid [[0], [1], [0]]⟩

/-- C6. The ranked list is a permutation of the frequency entries, its counts are
non-increasing along the ranks, and an entry whose block occurs strictly more often
than the block of another entry has the strictly smaller rank. -/
theorem ranking_order (s : Schedule) (hs : s.Valid) (bs : List Block) :
    (blockFrequencies s bs).Perm (frequencyEntries s bs) ∧
      (∀ (i j : Nat) (hi : i < (blockFrequencies s bs).length)
          (hj : j < (blockFrequencies s bs).length), i < j →
          (blockFrequencies s bs)[i].Count ≥ (blockFrequencies s bs)[j].Count) ∧
      (∀ (i j : Nat) (hi : i < (blockFrequencies s bs).length)
          (hj : j < (blockFrequencies s bs).length),
          bs.count (blockFrequencies s bs)[i].BlockKey >
            bs.count (blockFrequencies s bs)[j].BlockKey → i < j) := by
  have hsorted : ∀ (i j : Nat) (hi : i < (blockFrequencies s bs).length)
      (hj : j < (blockFrequencies s bs).length), i < j →
      (blockFrequencies s bs)[i].Count ≥ (blockFrequencies s bs)[j].Count := by
    intro i j hi hj hij
    have h := List.pairwise_iff_getElem.mp (hs.sort_sorted (frequencyEntries s bs)) i j hi hj hij
    simpa [less] using h
  refine ⟨hs.sort_perm _, hsorted, ?_⟩
  intro i j hi hj hgt
  obtain ⟨_, _, hcnt, _⟩ := entries_spec bs _ (blockFrequencies_perm s hs bs)
  rw [← hcnt _ (List.getElem_mem hi), ← hcnt _ (List.getElem_mem hj)] at hgt
  by_contra hij
  rcases Nat.lt_or_ge j i with h | h
  · have := hsorted j i hj hi h
    omega
  · have : i = j := by omega
    subst this
    omega

/-- Witness of C6: three blocks, two of them equal, under the last-seen
schedule. -/
theorem ranking_order_witness :
    lastSeen.Valid ∧
    ((blockFrequencies lastSeen [[0], [1], [0]]).Perm (frequencyEntries lastSeen [[0], [1], [0]]) ∧
      (∀ (i j : Nat) (hi : i < (blockFrequencies lastSeen [[0], [1], [0]]).length)
          (hj : j < (blockFrequencies lastSeen [[0], [1], [0]]).length), i < j →
          (blockFrequencies lastSeen [[0], [1], [0]])[i].Count ≥
            (blockFrequencies lastSeen [[0], [1], [0]])[j].Count) ∧
      (∀ (i j : Nat) (hi : i < (blockFrequencies lastSeen [[0], [1], [0]]).length)
          (hj : j < (blockFrequencies lastSeen [[0], [1], [0]]).length),
          ([[0], [1], [0]] : List Block).count (blockFrequencies lastSeen [[0], [1], [0]])[i].BlockKey >
            ([[0], [1], [0]] : List Block).count (blockFrequencies lastSeen [[0], [1], [0]])[j].BlockKey →
          i < j)) :=
  ⟨lastSeen_valid, ranking_order lastSeen lastSeen_valid [[0], [1], [0]]⟩


/-! ## Shape of the palette -/

theorem uint8_mod_255 (n : Nat) : uint8 (n % 255) = n % 255 := by
  unfold uint8
  omega

theorem generated_eq (i : Nat) :
    generated i = Color.rgba ⟨(i * 50) % 255, (i * 80) % 255, (i * 110) % 255, 255⟩ := by
  simp [generated, uint8_mod_255]

theorem length_paletteEntries (colorsNeeded : Int) :
    (paletteEntries colorsNeeded).length = (colorsNeeded - 1 - 1).toNat + 2 := by
  simp [paletteEntries]

theorem paletteEntries_zero (colorsNeeded : Int) :
    (paletteEntries colorsNeeded)[0]? = some color.White := by
  simp [paletteEntries]

theorem paletteEntries_last (colorsNeeded : Int) :
    (paletteEntries colorsNeeded)[(colorsNeeded - 1 - 1).toNat + 1]? = some color.Black := by
  unfold paletteEntries
  rw [List.getElem?_append_right (by simp)]
  simp

theorem paletteEntries_middle (colorsNeeded : Int) (i : Nat) (h0 : 0 < i)
    (h1 : (i : Int) < colorsNeeded - 1) :
    (paletteEntries colorsNeeded)[i]? = some (generated i) := by
  unfold paletteEntries
  have hi : i - 1 < (colorsNeeded - 1 - 1).toNat := by omega
  rw [List.getElem?_append_left (by simp; omega)]
  rw [List.getElem?_append_right (by simp; omega)]
  simp only [List.length_singleton]
  rw [List.getElem?_map, List.getElem?_range' _ _ hi]
  simp
  congr 1
  omega

theorem capRefused_small (cap : Int) (h0 : 0 ≤ cap) (h1 : cap ≤ 17592186044416) :
    capRefused cap = false := by
  unfold capRefused colorSize maxAlloc
  rw [decide_eq_false_iff_not]
  push_cast
  omega

theorem wrap64_small (n : Int) (h0 : 0 ≤ n) (h1 : n < 9223372036854775808) : wrap64 n = n := by
  unfold wrap64
  omega

/-- The call of `make` for the palette either refuses the capacity, and the program
panics, or grants it, and the palette is the list of the appends. -/
theorem palette_cases (colorsNeeded : Int) :
    (capRefused colorsNeeded = false ∧
      palette colorsNeeded = Except.ok (paletteEntries colorsNeeded)) ∨
    (capRefused colorsNeeded = true ∧
      palette colorsNeeded = Except.error Fault.capOutOfRange) := by
  unfold palette
  cases h : capRefused colorsNeeded
  · left
    exact ⟨rfl, by simp⟩
  · right
    exact ⟨rfl, by simp⟩

theorem palette_built (colorsNeeded : Int) (pal : List Color)
    (h : palette colorsNeeded = Except.ok pal) : pal = paletteEntries colorsNeeded := by
  rcases palette_cases colorsNeeded with ⟨_, h2⟩ | ⟨_, h2⟩
  · rw [h2] at h
    exact (Except.ok.inj h).symm
  · rw [h2] at h
    cases h

/-- C3. For `colorsNeeded >= 2` the call of `make` at line 83 either panics on the
capacity or the palette is built; every palette that is built has exactly
`colorsNeeded` entries, its entry 0 is white, drawn as (255,255,255,255), its entry
`colorsNeeded - 1` is black, drawn as (0,0,0,255), and every entry `i` strictly
between is the RGBA colour ((i*50) mod 255, (i*80) mod 255, (i*110) mod 255, 255). -/
theorem palette_shape (colorsNeeded : Int) (h : 2 ≤ colorsNeeded) :
    ((∃ pal, palette colorsNeeded = Except.ok pal) ∨
      palette colorsNeeded = Except.error Fault.capOutOfRange) ∧
    ∀ pal, palette colorsNeeded = Except.ok pal →
      (pal.length : Int) = colorsNeeded ∧
      pal[0]? = some color.White ∧ rgbaModel color.White = ⟨255, 255, 255, 255⟩ ∧
      pal[(colorsNeeded - 1).toNat]? = some color.Black ∧
      rgbaModel color.Black = ⟨0, 0, 0, 255⟩ ∧
      ∀ i : Nat, 0 < i → (i : Int) < colorsNeeded - 1 →
        pal[i]? = some (Color.rgba ⟨(i * 50) % 255, (i * 80) % 255, (i * 110) % 255, 255⟩) ∧
        (pal[i]?).map rgbaModel =
          some ⟨(i * 50) % 255, (i * 80) % 255, (i * 110) % 255, 255⟩ := by
  constructor
  · rcases palette_cases colorsNeeded with ⟨_, h2⟩ | ⟨_, h2⟩
    · exact Or.inl ⟨_, h2⟩
    · exact Or.inr h2
  · intro pal hpal
    rw [palette_built colorsNeeded pal hpal]
    refine ⟨?_, paletteEntries_zero _, by decide, ?_, by decide, ?_⟩
    · rw [length_paletteEntries]
      omega
    · have e : (colorsNeeded - 1).toNat = (colorsNeeded - 1 - 1).toNat + 1 := by omega
      rw [e]
      exact paletteEntries_last _
    · intro i h0 h1
      rw [paletteEntries_middle colorsNeeded i h0 h1, generated_eq]
      exact ⟨rfl, rfl⟩

set_option maxRecDepth 100000 in
/-- Witness of C3: the default `colorsNeeded = 254`, for which the palette is
built. -/
theorem palette_shape_witness :
    ((2 : Int) ≤ 254 ∧ palette 254 = Except.ok (paletteEntries 254)) ∧
    ((∃ pal, palette 254 = Except.ok pal) ∨ palette 254 = Except.error Fault.capOutOfRange) ∧
    ∀ pal, palette 254 = Except.ok pal →
      (pal.length : Int) = 254 ∧
      pal[0]? = some color.White ∧ rgbaModel color.White = ⟨255, 255, 255, 255⟩ ∧
      pal[((254 : Int) - 1).toNat]? = some color.Black ∧
      rgbaModel color.Black = ⟨0, 0, 0, 255⟩ ∧
      ∀ i : Nat, 0 < i → (i : Int) < 254 - 1 →
        pal[i]? = some (Color.rgba ⟨(i * 50) % 255, (i * 80) % 255, (i * 110) % 255, 255⟩) ∧
        (pal[i]?).map rgbaModel =
          some ⟨(i * 50) % 255, (i * 80) % 255, (i * 110) % 255, 255⟩ :=
  ⟨⟨by decide, by decide⟩, palette_shape 254 (by decide)⟩


/-! ## Colour by rank -/

theorem mapGet_mapSet_self (key : Block) (clr : Color) (m : List (Block × Color)) :
    mapGet key (mapSet key clr m) = some clr := by
  induction m with
  | nil => simp [mapSet, mapGet]
  | cons kv m ih =>
    obtain ⟨k, v⟩ := kv
    by_cases hk : k = key
    · simp [mapSet, mapGet, hk]
    · simp [mapSet, mapGet, hk, ih]

theorem mapGet_mapSet_other (key k2 : Block) (clr : Color) (m : List (Block × Color))
    (h : key ≠ k2) : mapGet k2 (mapSet key clr m) = mapGet k2 m := by
  induction m with
  | nil => simp [mapSet, mapGet, h]
  | cons kv m ih =>
    obtain ⟨k, v⟩ := kv
    by_cases hk : k = key
    · subst hk
      simp [mapSet, mapGet, h]
    · by_cases hk2 : k = k2
      · subst hk2
        simp [mapSet, mapGet, hk]
      · simp [mapSet, mapGet, hk, hk2, ih]

/-- The assignment loop, started at rank `i`, stores for the entry at offset `j`
the colour chosen for rank `i + j`, and leaves every other key as it was, when the
keys are pairwise distinct and every rank has a colour. -/
theorem colorMapLoop_spec (colorsNeeded : Int) (pal : List Color) (f : Nat → Color)
    (hf : ∀ i, rankColor colorsNeeded pal i = Except.ok (f i)) :
    ∀ (ranked : List BlockFrequencifier) (i : Nat) (cm : List (Block × Color)),
      (ranked.map (fun e => e.BlockKey)).Nodup →
      ∃ cm2, colorMapLoop colorsNeeded pal i ranked cm = Except.ok cm2 ∧
        (∀ (j : Nat) (hj : j < ranked.length),
          mapGet ranked[j].BlockKey cm2 = some (f (i + j))) ∧
        (∀ key, key ∉ ranked.map (fun e => e.BlockKey) → mapGet key cm2 = mapGet key cm) := by
  intro ranked
  induction ranked with
  | nil =>
    intro i cm _
    refine ⟨cm, rfl, ?_, ?_⟩
    · intro j hj
      simp at hj
    · intro key _
      rfl
  | cons bf rest ih =>
    intro i cm hnd
    rw [List.map_cons, List.nodup_cons] at hnd
    obtain ⟨cm2, hrun, hget, hkeep⟩ := ih (i + 1) (mapSet bf.BlockKey (f i) cm) hnd.2
    refine ⟨cm2, ?_, ?_, ?_⟩
    · simp only [colorMapLoop, hf i]
      exact hrun
    · intro j hj
      cases j with
      | zero =>
        simp only [List.getElem_cons_zero, Nat.add_zero]
        rw [hkeep bf.BlockKey hnd.1, mapGet_mapSet_self]
      | succ j =>
        simp only [List.getElem_cons_succ]
        have hj2 : j < rest.length := by simpa using hj
        rw [hget j hj2]
        congr 2
        omega
    · intro key hkey
      simp only [List.map_cons, List.mem_cons, not_or] at hkey
      rw [hkeep key hkey.2, mapGet_mapSet_other _ _ _ _ (fun e => hkey.1 e.symm)]

/-- With the palette of `colorsNeeded >= 2` every rank has a colour: the palette
entry of the rank below `colorsNeeded - 1`, the last entry from there on. -/
theorem rankColor_paletteEntries (colorsNeeded : Int) (h : 2 ≤ colorsNeeded) (i : Nat) :
    rankColor colorsNeeded (paletteEntries colorsNeeded) i =
      Except.ok (if i = 0 then color.White
        else if (i : Int) < colorsNeeded - 1 then generated i else color.Black) := by
  unfold rankColor index
  by_cases h0 : i = 0
  · subst h0
    rw [if_pos (by simp; omega), paletteEntries_zero]
    simp
  · by_cases h1 : (i : Int) < colorsNeeded - 1
    · rw [if_pos h1, paletteEntries_middle colorsNeeded i (by omega) h1]
      simp [h0, h1]
    · rw [if_neg h1]
      have e : (paletteEntries colorsNeeded).length - 1 = (colorsNeeded - 1 - 1).toNat + 1 := by
        rw [length_paletteEntries]
        omega
      rw [e, paletteEntries_last]
      simp [h0, h1]

/-- C2. For every ranked list (entries with pairwise distinct blocks), every
`colorsNeeded >= 2` and the palette built for it, the assignment loop succeeds and
the block at rank `i` is mapped to palette entry `i` when `i < colorsNeeded - 1` and
to palette entry `colorsNeeded - 1` otherwise; the block at rank 0 is mapped to
white and every block at a rank from `colorsNeeded - 1` on to black. -/
theorem color_by_rank (ranked : List BlockFrequencifier) (colorsNeeded : Int)
    (hnd : (ranked.map (fun e => e.BlockKey)).Nodup) (h : 2 ≤ colorsNeeded)
    (pal : List Color) (hpal : palette colorsNeeded = Except.ok pal) :
    ∃ cm, colorMap colorsNeeded pal ranked = Except.ok cm ∧
      (∀ (i : Nat) (hi : i < ranked.length),
        (∃ clr, mapGet ranked[i].BlockKey cm = some clr) ∧
        mapGet ranked[i].BlockKey cm =
          if (i : Int) < colorsNeeded - 1 then pal[i]? else pal[(colorsNeeded - 1).toNat]?) ∧
      (∀ (h0 : 0 < ranked.length), mapGet ranked[0].BlockKey cm = some color.White) ∧
      (∀ (i : Nat) (hi : i < ranked.length), colorsNeeded - 1 ≤ (i : Int) →
        mapGet ranked[i].BlockKey cm = some color.Black) := by
  rw [palette_built colorsNeeded pal hpal]
  obtain ⟨cm, hrun, hget, _⟩ :=
    colorMapLoop_spec colorsNeeded (paletteEntries colorsNeeded) _
      (rankColor_paletteEntries colorsNeeded h) ranked 0 [] hnd
  have hlast : (paletteEntries colorsNeeded)[(colorsNeeded - 1).toNat]? = some color.Black := by
    have e : (colorsNeeded - 1).toNat = (colorsNeeded - 1 - 1).toNat + 1 := by omega
    rw [e]
    exact paletteEntries_last _
  refine ⟨cm, hrun, ?_, ?_, ?_⟩
  · intro i hi
    refine ⟨⟨_, hget i hi⟩, ?_⟩
    rw [hget i hi, Nat.zero_add]
    by_cases h0 : i = 0
    · subst h0
      rw [if_pos rfl, if_pos (by simp; omega), paletteEntries_zero]
    · rw [if_neg h0]
      by_cases h1 : (i : Int) < colorsNeeded - 1
      · rw [if_pos h1, if_pos h1, paletteEntries_middle colorsNeeded i (by omega) h1]
      · rw [if_neg h1, if_neg h1, hlast]
  · intro h0
    rw [hget 0 h0]
    simp
  · intro i hi hge
    rw [hget i hi, Nat.zero_add]
    have h0 : i ≠ 0 := by omega
    rw [if_neg h0, if_neg (by omega)]

/-- Witness of C2: three ranked blocks and the palette of two colours. -/
theorem color_by_rank_witness :
    ((([⟨[0], 2⟩, ⟨[1], 1⟩, ⟨[2], 1⟩] : List BlockFrequencifier).map
        (fun e => e.BlockKey)).Nodup ∧ (2 : Int) ≤ 2 ∧
      palette 2 = Except.ok [color.White, color.Black]) ∧
    ∃ cm, colorMap 2 [color.White, color.Black] [⟨[0], 2⟩, ⟨[1], 1⟩, ⟨[2], 1⟩] = Except.ok cm ∧
      (∀ (i : Nat) (hi : i < ([⟨[0], 2⟩, ⟨[1], 1⟩, ⟨[2], 1⟩] : List BlockFrequencifier).length),
        (∃ clr, mapGet ([⟨[0], 2⟩, ⟨[1], 1⟩, ⟨[2], 1⟩] : List BlockFrequencifier)[i].BlockKey cm
          = some clr) ∧
        mapGet ([⟨[0], 2⟩, ⟨[1], 1⟩, ⟨[2], 1⟩] : List BlockFrequencifier)[i].BlockKey cm =
          if (i : Int) < 2 - 1 then ([color.White, color.Black] : List Color)[i]?
          else ([color.White, color.Black] : List Color)[((2 : Int) - 1).toNat]?) ∧
      (∀ (h0 : 0 < ([⟨[0], 2⟩, ⟨[1], 1⟩, ⟨[2], 1⟩] : List BlockFrequencifier).length),
        mapGet ([⟨[0], 2⟩, ⟨[1], 1⟩, ⟨[2], 1⟩] : List BlockFrequencifier)[0].BlockKey cm
          = some color.White) ∧
      (∀ (i : Nat) (hi : i < ([⟨[0], 2⟩, ⟨[1], 1⟩, ⟨[2], 1⟩] : List BlockFrequencifier).length),
        (2 : Int) - 1 ≤ (i : Int) →
        mapGet ([⟨[0], 2⟩, ⟨[1], 1⟩, ⟨[2], 1⟩] : List BlockFrequencifier)[i].BlockKey cm
          = some color.Black) :=
  ⟨⟨by decide, by decide, by decide⟩,
    color_by_rank [⟨[0], 2⟩, ⟨[1], 1⟩, ⟨[2], 1⟩] 2 (by decide) (by decide)
      [color.White, color.Black] (by decide)⟩


/-! ## Pixel runs -/

/-- With a non-zero `pixWidth` the expansion loop succeeds and appends, block after
block in input order, the colour of the block `blockSize / pixWidth` times. -/
theorem pixelLoop_ok (cm : List (Block × Color)) (pixWidth : Int) (h : pixWidth ≠ 0)
    (bs : List Block) :
    pixelLoop cm pixWidth bs = Except.ok
      (bs.flatMap (fun b =>
        List.replicate (Int.tdiv (blockSize : Int) pixWidth).toNat (lookupColor cm b))) := by
  induction bs with
  | nil => rfl
  | cons b bs ih => simp [pixelLoop, h, ih]

/-- Every successful run of the expansion is the run-by-run expansion of the block
sequence. -/
theorem pixelData_ok (bs : List Block) (cm : List (Block × Color)) (pixWidth : Int)
    (px : List Color) (h : pixelData bs cm pixWidth = Except.ok px) :
    px = bs.flatMap (fun b =>
      List.replicate (Int.tdiv (blockSize : Int) pixWidth).toNat (lookupColor cm b)) := by
  unfold pixelData at h
  split at h
  · cases h
  · by_cases hp : pixWidth = 0
    · cases bs with
      | nil =>
        simp [pixelLoop] at h
        simp [h]
      | cons b bs => simp [pixelLoop, hp] at h
    · rw [pixelLoop_ok cm pixWidth hp bs] at h
      cases h
      rfl

theorem length_expand {α : Type} (r : Nat) (f : Block → α) (bs : List Block) :
    (bs.flatMap (fun b => List.replicate r (f b))).length = bs.length * r := by
  induction bs with
  | nil => simp
  | cons b bs ih =>
    simp only [List.flatMap_cons, List.length_append, List.length_replicate, ih,
      List.length_cons]
    ring

/-- Position `k` of an expansion with runs of length `r` holds the value of the
block at position `k / r`. -/
theorem getElem?_expand {α : Type} (r : Nat) (f : Block → α) :
    ∀ (bs : List Block) (k : Nat), k < bs.length * r →
      (bs.flatMap (fun b => List.replicate r (f b)))[k]? = (bs[k / r]?).map f := by
  intro bs
  induction bs with
  | nil =>
    intro k hk
    simp at hk
  | cons b bs ih =>
    intro k hk
    have hr : 0 < r := by
      rcases Nat.eq_zero_or_pos r with h | h
      · subst h
        simp at hk
      · exact h
    rw [List.flatMap_cons]
    by_cases hkr : k < r
    · rw [List.getElem?_append_left (by simpa using hkr)]
      rw [Nat.div_eq_of_lt hkr]
      simp [List.getElem?_replicate, hkr]
    · have hge : r ≤ k := Nat.le_of_not_lt hkr
      rw [List.getElem?_append_right (by simpa using hge)]
      simp only [List.length_replicate]
      have hk2 : k - r < bs.length * r := by
        rw [List.length_cons, Nat.add_mul, Nat.one_mul] at hk
        omega
      rw [ih (k - r) hk2]
      have hdiv : k / r = (k - r) / r + 1 := by
        have e : k = (k - r) + r := by omega
        conv_lhs => rw [e]
        exact Nat.add_div_right _ hr
      rw [hdiv, List.getElem?_cons_succ]

theorem tdiv_blockSize (pixWidth : Int) (h : 1 ≤ pixWidth) :
    (Int.tdiv (blockSize : Int) pixWidth).toNat = 16 / pixWidth.toNat := by
  obtain ⟨n, rfl⟩ := Int.eq_ofNat_of_zero_le (by omega : 0 ≤ pixWidth)
  simp [blockSize, Int.tdiv]
  norm_cast

/-- The call of `make` for the pixel slice either refuses the capacity, and the
program panics, or grants it, and with a non-zero `pixWidth` the loop succeeds. -/
theorem pixelData_cases (bs : List Block) (cm : List (Block × Color)) (pixWidth : Int)
    (h : pixWidth ≠ 0) :
    (capRefused (wrap64 ((bs.length : Int) * pixWidth)) = false ∧
      pixelData bs cm pixWidth = Except.ok (bs.flatMap (fun b =>
        List.replicate (Int.tdiv (blockSize : Int) pixWidth).toNat (lookupColor cm b)))) ∨
    (capRefused (wrap64 ((bs.length : Int) * pixWidth)) = true ∧
      pixelData bs cm pixWidth = Except.error Fault.capOutOfRange) := by
  unfold pixelData
  cases hc : capRefused (wrap64 ((bs.length : Int) * pixWidth))
  · left
    refine ⟨rfl, ?_⟩
    rw [pixelLoop_ok cm pixWidth h bs]
    simp
  · right
    exact ⟨rfl, by simp⟩

/-- C7. For every block sequence of length `n`, every colour map and every
`pixWidth >= 1`, with `r = 16 div pixWidth`, the call of `make` at line 109 either
panics on the capacity or the expansion succeeds; every pixel sequence it yields has
length `n * r`, its pixel at position `k` is the colour looked up for the block at
position `k div r` of the sequence in input order, and for `pixWidth > 16` the run
length is 0 and the pixel sequence is empty. -/
theorem pixel_expansion (bs : List Block) (cm : List (Block × Color)) (pixWidth : Int)
    (h : 1 ≤ pixWidth) :
    ((∃ px, pixelData bs cm pixWidth = Except.ok px) ∨
      pixelData bs cm pixWidth = Except.error Fault.capOutOfRange) ∧
    ∀ px, pixelData bs cm pixWidth = Except.ok px →
      px.length = bs.length * (16 / pixWidth.toNat) ∧
      (∀ k, k < bs.length * (16 / pixWidth.toNat) →
        (∃ clr, px[k]? = some clr) ∧
        px[k]? = (bs[k / (16 / pixWidth.toNat)]?).map (lookupColor cm)) ∧
      (16 < pixWidth → 16 / pixWidth.toNat = 0 ∧ px = []) := by
  have hne : pixWidth ≠ 0 := by omega
  constructor
  · rcases pixelData_cases bs cm pixWidth hne with ⟨_, h2⟩ | ⟨_, h2⟩
    · exact Or.inl ⟨_, h2⟩
    · exact Or.inr h2
  · intro px hpx
    have hform := pixelData_ok bs cm pixWidth px hpx
    rw [tdiv_blockSize pixWidth h] at hform
    subst hform
    refine ⟨length_expand _ _ bs, ?_, ?_⟩
    · intro k hk
      have hget := getElem?_expand (16 / pixWidth.toNat) (lookupColor cm) bs k hk
      refine ⟨?_, hget⟩
      have hlt : k < (bs.flatMap (fun b =>
          List.replicate (16 / pixWidth.toNat) (lookupColor cm b))).length := by
        rw [length_expand]
        exact hk
      exact ⟨_, List.getElem?_eq_getElem hlt⟩
    · intro hbig
      have hr : 16 / pixWidth.toNat = 0 := Nat.div_eq_of_lt (by omega)
      refine ⟨hr, ?_⟩
      apply List.eq_nil_of_length_eq_zero
      rw [length_expand, hr]
      simp

/-- Witness of C7: three blocks drawn four pixels each. -/
theorem pixel_expansion_witness :
    ((1 : Int) ≤ 4 ∧
      pixelData [[0], [1], [0]] [([0], color.White)] 4 =
        Except.ok (List.replicate 4 color.White ++ List.replicate 4 color.Black
          ++ List.replicate 4 color.White)) ∧
    ((∃ px, pixelData [[0], [1], [0]] [([0], color.White)] 4 = Except.ok px) ∨
      pixelData [[0], [1], [0]] [([0], color.White)] 4 = Except.error Fault.capOutOfRange) ∧
    ∀ px, pixelData [[0], [1], [0]] [([0], color.White)] 4 = Except.ok px →
      px.length = ([[0], [1], [0]] : List Block).length * (16 / (4 : Int).toNat) ∧
      (∀ k, k < ([[0], [1], [0]] : List Block).length * (16 / (4 : Int).toNat) →
        (∃ clr, px[k]? = some clr) ∧
        px[k]? = (([[0], [1], [0]] : List Block)[k / (16 / (4 : Int).toNat)]?).map
          (lookupColor [([0], color.White)])) ∧
      ((16 : Int) < 4 → 16 / (4 : Int).toNat = 0 ∧ px = []) :=
  ⟨⟨by decide, by decide⟩, pixel_expansion [[0], [1], [0]] [([0], color.White)] 4 (by decide)⟩

/-- C1. Whatever the schedule and the configuration, when `processImage` gets as
far as the pixel sequence, all pixels emitted for two blocks of identical content
have one and the same colour: the pixels of the block at position `p` are those at
positions `p * r + i` for `i < r`, with `r` the run length `16 / pixWidth`. -/
theorem referential_colour (s : Schedule) (bytes : List Byte) (colorsNeeded pixWidth : Int)
    (bs : List Block) (px : List Color)
    (hbs : blocks bytes = Except.ok bs)
    (hpx : pixels s bytes colorsNeeded pixWidth = Except.ok px)
    (p q : Nat) (hp : p < bs.length) (hq : q < bs.length) (heq : bs[p] = bs[q])
    (i j : Nat) (hi : i < (Int.tdiv (blockSize : Int) pixWidth).toNat)
    (hj : j < (Int.tdiv (blockSize : Int) pixWidth).toNat) :
    ∃ clr, px[p * (Int.tdiv (blockSize : Int) pixWidth).toNat + i]? = some clr ∧
      px[q * (Int.tdiv (blockSize : Int) pixWidth).toNat + j]? = some clr := by
  unfold pixels at hpx
  rw [hbs] at hpx
  simp only at hpx
  split at hpx
  · cases hpx
  · rename_i pal _
    split at hpx
    · cases hpx
    · rename_i cm _
      have hform := pixelData_ok bs cm pixWidth px hpx
      generalize (Int.tdiv (blockSize : Int) pixWidth).toNat = r at hi hj hform ⊢
      have key : ∀ (t : Nat) (ht : t < bs.length) (u : Nat), u < r →
          px[t * r + u]? = some (lookupColor cm bs[t]) := by
        intro t ht u hu
        have hlt : t * r + u < bs.length * r := by
          have h1 : (t + 1) * r ≤ bs.length * r := Nat.mul_le_mul_right r ht
          rw [Nat.add_mul, Nat.one_mul] at h1
          omega
        rw [hform, getElem?_expand r (lookupColor cm) bs _ hlt]
        have hdiv : (t * r + u) / r = t := by
          rw [Nat.add_comm, Nat.add_mul_div_right _ _ (by omega : 0 < r), Nat.div_eq_of_lt hu]
          simp
        rw [hdiv, List.getElem?_eq_getElem ht]
        rfl
      exact ⟨lookupColor cm bs[p], key p hp i hi, by rw [heq]; exact key q hq j hj⟩


set_option maxRecDepth 100000 in
/-- Witness of C1: the first and the third block of a 48-byte input are equal, under
the default configuration. -/
theorem referential_colour_witness :
    ∃ clr, ([color.White, generated 1, color.White] : List Color)[
        0 * (Int.tdiv (blockSize : Int) 16).toNat + 0]? = some clr ∧
      ([color.White, generated 1, color.White] : List Color)[
        2 * (Int.tdiv (blockSize : Int) 16).toNat + 0]? = some clr :=
  referential_colour firstSeen
    (List.replicate 16 0 ++ List.replicate 16 1 ++ List.replicate 16 0) 254 16
    [List.replicate 16 0, List.replicate 16 1, List.replicate 16 0]
    [color.White, generated 1, color.White]
    (by decide) (by decide) 0 2 (by decide) (by decide) (by decide) 0 0 (by decide) (by decide)


/-! ## Width and height -/

/-- Rounding the root of `n * P^2` to the nearest integer and dropping the fraction
after division by `P` gives the integer root of `n`, when `P` exceeds that root. -/
theorem roundSqrt_div (n P : Nat) (hP : Nat.sqrt n + 1 ≤ P) :
    roundSqrt (n * (P * P)) / P = Nat.sqrt n := by
  have hk1 : Nat.sqrt n * Nat.sqrt n ≤ n := Nat.sqrt_le n
  have hk2 : n < (Nat.sqrt n + 1) * (Nat.sqrt n + 1) := Nat.lt_succ_sqrt n
  have hr1 : Nat.sqrt (n * (P * P)) * Nat.sqrt (n * (P * P)) ≤ n * (P * P) := Nat.sqrt_le _
  have hr2 : n * (P * P) < (Nat.sqrt (n * (P * P)) + 1) * (Nat.sqrt (n * (P * P)) + 1) :=
    Nat.lt_succ_sqrt _
  generalize Nat.sqrt n = k at *
  have hPpos : 0 < P := by omega
  have hlo : k * P ≤ Nat.sqrt (n * (P * P)) := by
    rw [Nat.le_sqrt]
    calc k * P * (k * P) = (k * k) * (P * P) := by ring
      _ ≤ n * (P * P) := Nat.mul_le_mul_right _ hk1
  have hhi : Nat.sqrt (n * (P * P)) < (k + 1) * P := by
    rw [Nat.sqrt_lt]
    calc n * (P * P) < ((k + 1) * (k + 1)) * (P * P) :=
          Nat.mul_lt_mul_of_pos_right hk2 (Nat.mul_pos hPpos hPpos)
      _ = (k + 1) * P * ((k + 1) * P) := by ring
  unfold roundSqrt
  generalize Nat.sqrt (n * (P * P)) = r at *
  apply Nat.div_eq_of_lt_le
  · split <;> omega
  · split
    · exact hhi
    · rename_i hup
      by_contra hcon
      have hr : r + 1 = (k + 1) * P := by omega
      have hN : n * (P * P) + P * P ≤ (k + 1) * (k + 1) * (P * P) := by
        have : n + 1 ≤ (k + 1) * (k + 1) := hk2
        calc n * (P * P) + P * P = (n + 1) * (P * P) := by ring
          _ ≤ (k + 1) * (k + 1) * (P * P) := Nat.mul_le_mul_right _ this
      have hup2 : r * r + r < n * (P * P) := by omega
      have e1 : (r + 1) * (r + 1) = (k + 1) * (k + 1) * (P * P) := by rw [hr]; ring
      have e2 : (r + 1) * (r + 1) = r * r + r + (r + 1) := by ring
      have : P * P < (k + 1) * P := by omega
      have : P < k + 1 := Nat.lt_of_mul_lt_mul_right this
      omega

/-- On every length below `2^52` the floating-point computation of the width is the
integer square root. -/
theorem float64Sqrt_eq_sqrt (n : Nat) (h : n < 2 ^ 52) : float64Sqrt n = Nat.sqrt n := by
  unfold float64Sqrt
  have hk : Nat.sqrt n < 2 ^ 26 := by
    rw [Nat.sqrt_lt]
    calc n < 2 ^ 52 := h
      _ = 2 ^ 26 * 2 ^ 26 := by norm_num
  have hlog : Nat.log2 (Nat.sqrt n) ≤ 25 := by
    by_cases h0 : Nat.sqrt n = 0
    · rw [h0]; simp [Nat.log2]
    · have := (Nat.log2_lt h0).mpr hk
      omega
  have e4 : (4 : Nat) ^ (52 - Nat.log2 (Nat.sqrt n)) =
      2 ^ (52 - Nat.log2 (Nat.sqrt n)) * 2 ^ (52 - Nat.log2 (Nat.sqrt n)) := by
    rw [← Nat.mul_pow]
  rw [e4]
  apply roundSqrt_div
  have : 2 ^ 26 ≤ 2 ^ (52 - Nat.log2 (Nat.sqrt n)) := Nat.pow_le_pow_right (by norm_num) (by omega)
  omega

theorem width_pos (n : Nat) (h : 1 ≤ n) : 0 < width n :=
  Nat.sqrt_pos.mpr h

/-- The height computed for a non-empty pixel sequence, with the two bounds that
make it the least number of rows of `width` pixels holding `n` pixels. -/
theorem height_spec (n : Nat) (h : 1 ≤ n) :
    ∃ ht, height n = Except.ok ht ∧
      ht = n / width n + (if n % width n ≠ 0 then 1 else 0) ∧
      n ≤ width n * ht ∧ width n * (ht - 1) < n ∧ 1 ≤ ht := by
  have hw := width_pos n h
  have hdm := Nat.div_add_mod n (width n)
  have hmod := Nat.mod_lt n hw
  have hle : width n ≤ n := Nat.sqrt_le_self n
  have hq : 1 ≤ n / width n := (Nat.one_le_div_iff hw).mpr hle
  by_cases hr : n % width n ≠ 0
  · refine ⟨n / width n + 1, ?_, ?_, ?_, ?_, ?_⟩
    · unfold height
      rw [if_neg (by omega), if_pos hr]
    · rw [if_pos hr]
    · rw [Nat.mul_add, Nat.mul_one]
      omega
    · rw [Nat.add_sub_cancel]
      omega
    · omega
  · refine ⟨n / width n, ?_, ?_, ?_, ?_, hq⟩
    · unfold height
      rw [if_neg (by omega), if_neg hr]
    · rw [if_neg hr, Nat.add_zero]
    · omega
    · have e : width n * (n / width n - 1) = width n * (n / width n) - width n := by
        rw [Nat.mul_sub, Nat.mul_one]
      have : width n ≤ width n * (n / width n) := Nat.le_mul_of_pos_right _ hq
      omega

theorem ceil_div (n w : Nat) (hw : 0 < w) :
    (n + w - 1) / w = n / w + (if n % w ≠ 0 then 1 else 0) := by
  have hdm := Nat.div_add_mod n w
  have hmod := Nat.mod_lt n hw
  by_cases hr : n % w ≠ 0
  · rw [if_pos hr]
    apply Nat.div_eq_of_lt_le
    · rw [Nat.add_mul, Nat.one_mul, Nat.mul_comm]
      omega
    · rw [Nat.succ_mul, Nat.add_mul, Nat.one_mul, Nat.mul_comm]
      omega
  · rw [if_neg hr, Nat.add_zero]
    apply Nat.div_eq_of_lt_le
    · rw [Nat.mul_comm]
      omega
    · rw [Nat.succ_mul, Nat.mul_comm]
      omega

/-- C8. For every pixel sequence of length `n >= 1` the width is the integer floor
square root of `n`, which the floating-point computation yields for `n < 2^52`; the
height is computed without panic, is `n div width` plus 1
when `n mod width` is not 0, which is the ceiling of `n / width`; the canvas has room
for all pixels, `width * height >= n`, and no spare row, `width * (height-1) < n`. -/
theorem canvas_dimensions (pixelData : List Color) (h : 1 ≤ pixelData.length) :
    (pixelData.length < 2 ^ 52 → float64Sqrt pixelData.length = width pixelData.length) ∧
      width pixelData.length ^ 2 ≤ pixelData.length ∧
      pixelData.length < (width pixelData.length + 1) ^ 2 ∧
      ∃ ht, height pixelData.length = Except.ok ht ∧
        ht = pixelData.length / width pixelData.length +
          (if pixelData.length % width pixelData.length ≠ 0 then 1 else 0) ∧
        ht = (pixelData.length + width pixelData.length - 1) / width pixelData.length ∧
        width pixelData.length * ht ≥ pixelData.length ∧
        width pixelData.length * (ht - 1) < pixelData.length := by
  obtain ⟨ht, hrun, hval, hroom, htight, _⟩ := height_spec pixelData.length h
  refine ⟨float64Sqrt_eq_sqrt _, Nat.sqrt_le' _, Nat.lt_succ_sqrt' _, ht, hrun, hval, ?_, hroom,
    htight⟩
  rw [hval, ceil_div _ _ (width_pos _ h)]

/-- Witness of C8: five pixels give a canvas two wide and three high. -/
theorem canvas_dimensions_witness :
    1 ≤ (List.replicate 5 color.White).length ∧
    (((List.replicate 5 color.White).length < 2 ^ 52 →
        float64Sqrt (List.replicate 5 color.White).length =
          width (List.replicate 5 color.White).length) ∧
      width (List.replicate 5 color.White).length ^ 2 ≤ (List.replicate 5 color.White).length ∧
      (List.replicate 5 color.White).length < (width (List.replicate 5 color.White).length + 1) ^ 2 ∧
      ∃ ht, height (List.replicate 5 color.White).length = Except.ok ht ∧
        ht = (List.replicate 5 color.White).length / width (List.replicate 5 color.White).length +
          (if (List.replicate 5 color.White).length % width (List.replicate 5 color.White).length ≠ 0
            then 1 else 0) ∧
        ht = ((List.replicate 5 color.White).length + width (List.replicate 5 color.White).length - 1)
          / width (List.replicate 5 color.White).length ∧
        width (List.replicate 5 color.White).length * ht ≥ (List.replicate 5 color.White).length ∧
        width (List.replicate 5 color.White).length * (ht - 1) <
          (List.replicate 5 color.White).length) :=
  ⟨by decide, canvas_dimensions (List.replicate 5 color.White) (by decide)⟩


/-! ## Drawing and row reversal -/

theorem reverse_set {α : Type} (l : List α) (i : Nat) (a : α) (h : i < l.length) :
    (l.set i a).reverse = l.reverse.set (l.length - 1 - i) a := by
  apply List.ext_getElem?
  intro k
  by_cases hk : k < l.length
  · rw [List.getElem?_reverse (by simpa using hk), List.getElem?_set, List.getElem?_set,
      List.getElem?_reverse hk, List.length_set, List.length_reverse]
    by_cases e : i = l.length - 1 - k
    · have e2 : l.length - 1 - i = k := by omega
      rw [if_pos e, if_pos e2, if_pos h, if_pos (by omega)]
    · have e2 : ¬ l.length - 1 - i = k := by omega
      rw [if_neg e, if_neg e2]
  · have h1 : (l.set i a).reverse.length ≤ k := by simp; omega
    have h2 : (l.reverse.set (l.length - 1 - i) a).length ≤ k := by simp; omega
    rw [List.getElem?_eq_none h1, List.getElem?_eq_none h2]

theorem Set_height (img : Image) (x y : Int) (clr : Color) :
    (img.Set x y clr).height = img.height := by
  unfold Image.Set
  split <;> rfl

theorem Set_width (img : Image) (x y : Int) (clr : Color) :
    (img.Set x y clr).width = img.width := by
  unfold Image.Set
  split <;> rfl

theorem Set_rows_length (img : Image) (x y : Int) (clr : Color) :
    (img.Set x y clr).rows.length = img.rows.length := by
  unfold Image.Set
  split
  · simp
  · rfl

/-- Setting a pixel in row `y` and then reversing the rows is setting it in row
`height - y - 1` of the image with reversed rows. -/
theorem Set_reverseRows (img : Image) (hrows : img.rows.length = img.height) (x : Int) (y : Nat)
    (hy : y < img.height) (clr : Color) :
    (img.Set x (y : Int) clr).reverseRows =
      img.reverseRows.Set x ((img.height : Int) - (y : Int) - 1) clr := by
  have hy2 : ((img.height : Int) - (y : Int) - 1).toNat = img.rows.length - 1 - y := by omega
  unfold Image.Set Image.reverseRows
  by_cases hx : 0 ≤ x ∧ x < (img.width : Int)
  · rw [if_pos ⟨hx.1, hx.2, by omega, by omega⟩]
    simp only
    rw [if_pos ⟨hx.1, hx.2, by omega, by omega⟩]
    rw [hy2, Int.toNat_ofNat, reverse_set _ _ _ (by omega)]
    have hrow : img.rows.reverse.getD (img.rows.length - 1 - y) [] = img.rows.getD y [] := by
      rw [List.getD_eq_getElem?_getD, List.getD_eq_getElem?_getD,
        List.getElem?_reverse (by omega)]
      congr 2
      omega
    rw [hrow]
  · rw [if_neg (fun c => hx ⟨c.1, c.2.1⟩)]
    simp only
    rw [if_neg (fun c => hx ⟨c.1, c.2.1⟩)]

/-- Drawing with `flip` on the image with reversed rows gives the reversed rows of
drawing without `flip`, as long as every pixel falls on a row of the image. -/
theorem drawLoop_flip (w h : Nat) :
    ∀ (rest : List Color) (idx : Nat) (img : Image), img.height = h → img.rows.length = h →
      (∀ k, k < rest.length → (idx + k) / w < h) →
      drawLoop w h true idx rest img.reverseRows =
        (drawLoop w h false idx rest img).reverseRows := by
  intro rest
  induction rest with
  | nil =>
    intro idx img _ _ _
    rfl
  | cons clr rest ih =>
    intro idx img hh hr hfit
    have h0 : idx / w < h := by
      have := hfit 0 (by simp)
      simpa using this
    have hstep := ih (idx + 1) (img.Set ((idx % w : Nat) : Int) ((idx / w : Nat) : Int) clr)
      (by rw [Set_height, hh]) (by rw [Set_rows_length, hr])
      (by
        intro k hk
        have := hfit (k + 1) (by simpa using hk)
        rw [show idx + 1 + k = idx + (k + 1) by omega]
        exact this)
    simp only [drawLoop, if_true, Bool.false_eq_true, if_false]
    generalize idx / w = y at h0 hstep ⊢
    rw [if_neg (by omega), if_neg (by omega)]
    rw [← hstep, Set_reverseRows img (by rw [hr, hh]) _ _ (by rw [hh]; exact h0), hh]

theorem drawLoop_shape (w h : Nat) (flip : Bool) :
    ∀ (rest : List Color) (idx : Nat) (img : Image),
      (drawLoop w h flip idx rest img).height = img.height ∧
      (drawLoop w h flip idx rest img).width = img.width ∧
      (drawLoop w h flip idx rest img).rows.length = img.rows.length := by
  intro rest
  induction rest with
  | nil =>
    intro idx img
    exact ⟨rfl, rfl, rfl⟩
  | cons clr rest ih =>
    intro idx img
    simp only [drawLoop]
    generalize (if flip = true then (h : Int) - ((idx / w : Nat) : Int) - 1
      else ((idx / w : Nat) : Int)) = y
    by_cases hy : y ≥ (h : Int)
    · rw [if_pos hy]
      exact ⟨rfl, rfl, rfl⟩
    · rw [if_neg hy]
      obtain ⟨h1, h2, h3⟩ := ih (idx + 1) (img.Set ((idx % w : Nat) : Int) y clr)
      rw [h1, h2, h3, Set_height, Set_width, Set_rows_length]
      exact ⟨rfl, rfl, rfl⟩

theorem reverseRows_NewRGBA (w h : Nat) : (NewRGBA w h).reverseRows = NewRGBA w h := by
  simp [Image.reverseRows, NewRGBA]

theorem reverseRows_reverseRows (img : Image) : img.reverseRows.reverseRows = img := by
  simp [Image.reverseRows]

theorem At_reverseRows (img : Image) (x y : Nat) (hy : y < img.rows.length) :
    img.reverseRows.At x y = img.At x (img.rows.length - 1 - y) := by
  unfold Image.At Image.reverseRows
  simp only
  rw [List.getElem?_reverse hy]

/-- C9. For every non-empty pixel sequence the height is computed without panic and
the canvas rendered with `flip = true` is the canvas rendered with `flip = false`
with its rows reversed, row `y` exchanged with row `height - 1 - y`; reversing the
rows twice gives back the canvas rendered with `flip = false`. -/
theorem flip_row_involution (pixelData : List Color) (h : 1 ≤ pixelData.length) :
    ∃ ht, height pixelData.length = Except.ok ht ∧
      render pixelData (width pixelData.length) ht true =
        (render pixelData (width pixelData.length) ht false).reverseRows ∧
      (∀ x y, y < ht →
        (render pixelData (width pixelData.length) ht false).reverseRows.At x y =
          (render pixelData (width pixelData.length) ht false).At x (ht - 1 - y)) ∧
      (render pixelData (width pixelData.length) ht false).reverseRows.reverseRows =
        render pixelData (width pixelData.length) ht false := by
  obtain ⟨ht, hrun, _, hroom, _, _⟩ := height_spec pixelData.length h
  have hw := width_pos pixelData.length h
  refine ⟨ht, hrun, ?_, ?_, reverseRows_reverseRows _⟩
  · unfold render
    rw [← drawLoop_flip (width pixelData.length) ht pixelData 0 (NewRGBA _ ht) rfl
      (by simp [NewRGBA]) ?_, reverseRows_NewRGBA]
    intro k hk
    rw [Nat.zero_add]
    apply Nat.div_lt_of_lt_mul
    omega
  · intro x y hy
    have hlen : (render pixelData (width pixelData.length) ht false).rows.length = ht := by
      unfold render
      rw [(drawLoop_shape _ _ _ _ _ _).2.2]
      simp [NewRGBA]
    rw [At_reverseRows _ _ _ (by rw [hlen]; exact hy), hlen]

/-- Witness of C9: five pixels on a canvas two wide and three high. -/
theorem flip_row_involution_witness :
    1 ≤ ([color.White, color.Black, generated 1, generated 2, generated 3] : List Color).length ∧
    ∃ ht, height ([color.White, color.Black, generated 1, generated 2, generated 3] :
        List Color).length = Except.ok ht ∧
      render [color.White, color.Black, generated 1, generated 2, generated 3]
          (width ([color.White, color.Black, generated 1, generated 2, generated 3] :
            List Color).length) ht true =
        (render [color.White, color.Black, generated 1, generated 2, generated 3]
          (width ([color.White, color.Black, generated 1, generated 2, generated 3] :
            List Color).length) ht false).reverseRows ∧
      (∀ x y, y < ht →
        (render [color.White, color.Black, generated 1, generated 2, generated 3]
          (width ([color.White, color.Black, generated 1, generated 2, generated 3] :
            List Color).length) ht false).reverseRows.At x y =
          (render [color.White, color.Black, generated 1, generated 2, generated 3]
            (width ([color.White, color.Black, generated 1, generated 2, generated 3] :
              List Color).length) ht false).At x (ht - 1 - y)) ∧
      (render [color.White, color.Black, generated 1, generated 2, generated 3]
          (width ([color.White, color.Black, generated 1, generated 2, generated 3] :
            List Color).length) ht false).reverseRows.reverseRows =
        render [color.White, color.Black, generated 1, generated 2, generated 3]
          (width ([color.White, color.Black, generated 1, generated 2, generated 3] :
            List Color).length) ht false :=
  ⟨by decide, flip_row_involution [color.White, color.Black, generated 1, generated 2, generated 3]
    (by decide)⟩


/-! ## Dependence on the schedule -/

theorem perm_two {α : Type} {a b : α} {l : List α} (h : l.Perm [a, b]) :
    l = [a, b] ∨ l = [b, a] := by
  obtain ⟨x, y, rfl⟩ := List.length_eq_two.mp (h.length_eq)
  have hx : x ∈ [a, b] := h.mem_iff.mp (by simp)
  simp only [List.mem_cons, List.mem_singleton, List.not_mem_nil, or_false] at hx
  rcases hx with rfl | rfl
  · left
    have := List.perm_singleton.mp h.cons_inv
    rw [this]
  · right
    have h2 : [x, y].Perm [x, a] := h.trans (List.Perm.swap x a [])
    have := List.perm_singleton.mp h2.cons_inv
    rw [this]

theorem counts_sorted (s : Schedule) (hs : s.Valid) (bs : List Block) :
    ((blockFrequencies s bs).map (fun e => e.Count)).Sorted (fun a b => a ≥ b) := by
  unfold List.Sorted
  rw [List.pairwise_map]
  refine List.Pairwise.imp ?_ (hs.sort_sorted (frequencyEntries s bs))
  intro a b hab
  simpa [less] using hab

theorem width_eq (n q : Nat) (h1 : q * q ≤ n) (h2 : n < (q + 1) * (q + 1)) : width n = q :=
  (Nat.eq_sqrt.mpr ⟨h1, h2⟩).symm

theorem height_two : height 2 = Except.ok 2 := by
  unfold height
  rw [width_eq 2 1 (by decide) (by decide)]
  decide

/-- A pixel sequence of two pixels is drawn on a canvas one wide and two high. -/
theorem processImage_two (s : Schedule) (bytes : List Byte) (colorsNeeded pixWidth : Int)
    (flip : Bool) (a b : Color) (h : pixels s bytes colorsNeeded pixWidth = Except.ok [a, b]) :
    processImage s bytes colorsNeeded flip pixWidth =
      Except.ok ⟨1, 2, if flip = true then [[rgbaModel b], [rgbaModel a]]
        else [[rgbaModel a], [rgbaModel b]]⟩ := by
  unfold processImage
  rw [h]
  simp only [List.length_cons, List.length_nil, Nat.zero_add, Nat.reduceAdd, height_two,
    width_eq 2 1 (by decide) (by decide)]
  cases flip <;> rfl

set_option maxRecDepth 100000 in
/-- The pixel sequence for the 32-byte input of 16 zero bytes followed by 16 one
bytes, with the default palette size and `pixWidth = 16`, when the ranked list is
given. -/
theorem tie_pixels (s : Schedule) (x y : Block) (a b : Color)
    (hr : blockFrequencies s [List.replicate 16 0, List.replicate 16 1] = [⟨x, 1⟩, ⟨y, 1⟩])
    (hx : lookupColor [(x, color.White), (y, generated 1)] (List.replicate 16 0) = a)
    (hy : lookupColor [(x, color.White), (y, generated 1)] (List.replicate 16 1) = b)
    (hxy : x ≠ y) :
    pixels s (List.replicate 16 0 ++ List.replicate 16 1) 254 16 = Except.ok [a, b] := by
  have hb : blocks (List.replicate 16 0 ++ List.replicate 16 1) =
      Except.ok [List.replicate 16 0, List.replicate 16 1] := by decide
  have hp : palette 254 = Except.ok (paletteEntries 254) := by decide
  have h0 : rankColor 254 (paletteEntries 254) 0 = Except.ok color.White := by decide
  have h1 : rankColor 254 (paletteEntries 254) 1 = Except.ok (generated 1) := by decide
  unfold pixels
  rw [hb]
  simp only [hr, hp, colorMap, colorMapLoop, h0, h1, mapSet, hxy, if_false, Nat.zero_add]
  rw [← hx, ← hy]
  rfl

/-- The runs of `processImage` on the 32-byte input of 16 zero bytes followed by 16
one bytes, with the default palette size and `pixWidth = 16`: the two blocks tie, so
either may take rank 0. -/
theorem tie_runs (s : Schedule) (hs : s.Valid) (flip : Bool) :
    ∃ a b, ((a = color.White ∧ b = generated 1) ∨ (a = generated 1 ∧ b = color.White)) ∧
      pixels s (List.replicate 16 0 ++ List.replicate 16 1) 254 16 = Except.ok [a, b] ∧
      processImage s (List.replicate 16 0 ++ List.replicate 16 1) 254 flip 16 =
        Except.ok ⟨1, 2, if flip = true then [[rgbaModel b], [rgbaModel a]]
          else [[rgbaModel a], [rgbaModel b]]⟩ := by
  have hperm := blockFrequencies_perm s hs [List.replicate 16 0, List.replicate 16 1]
  have hc : blockCounts [List.replicate 16 0, List.replicate 16 1] =
      [(List.replicate 16 0, 1), (List.replicate 16 1, 1)] := by decide
  rw [hc] at hperm
  simp only [List.map_cons, List.map_nil] at hperm
  rcases perm_two hperm with hr | hr
  · have hpx := tie_pixels s _ _ color.White (generated 1) hr (by decide) (by decide) (by decide)
    exact ⟨_, _, Or.inl ⟨rfl, rfl⟩, hpx, processImage_two s _ _ _ flip _ _ hpx⟩
  · have hpx := tie_pixels s _ _ (generated 1) color.White hr (by decide) (by decide) (by decide)
    exact ⟨_, _, Or.inr ⟨rfl, rfl⟩, hpx, processImage_two s _ _ _ flip _ _ hpx⟩

/-- C10, as the code has it. Two runs that differ in the iteration order of the map
and in the outcome of the sort produce ranked lists that are permutations of each
other with the same sequence of counts: they differ at most in the order of entries
of equal count. For 16 bytes of 0x00 followed by 16 bytes of 0x01, with 254 colours
and `pixWidth = 16`, one of the two blocks is white and the other has the first
generated colour (50,80,110,255); the canvas is one wide and two high and holds
these two colours in pixel order, or in reverse order when `flip` is set. -/
theorem ranking_up_to_ties (s1 s2 : Schedule) (h1 : s1.Valid) (h2 : s2.Valid) :
    (∀ bs : List Block,
      (blockFrequencies s1 bs).Perm (blockFrequencies s2 bs) ∧
      (blockFrequencies s1 bs).map (fun e => e.Count) =
        (blockFrequencies s2 bs).map (fun e => e.Count)) ∧
    (∀ flip : Bool, ∃ a b,
      ((a = color.White ∧ b = generated 1) ∨ (a = generated 1 ∧ b = color.White)) ∧
      rgbaModel color.White = ⟨255, 255, 255, 255⟩ ∧ rgbaModel (generated 1) = ⟨50, 80, 110, 255⟩ ∧
      pixels s1 (List.replicate 16 0 ++ List.replicate 16 1) 254 16 = Except.ok [a, b] ∧
      processImage s1 (List.replicate 16 0 ++ List.replicate 16 1) 254 flip 16 =
        Except.ok ⟨1, 2, if flip = true then [[rgbaModel b], [rgbaModel a]]
          else [[rgbaModel a], [rgbaModel b]]⟩) := by
  constructor
  · intro bs
    have hp : (blockFrequencies s1 bs).Perm (blockFrequencies s2 bs) :=
      (blockFrequencies_perm s1 h1 bs).trans (blockFrequencies_perm s2 h2 bs).symm
    refine ⟨hp, ?_⟩
    exact List.eq_of_perm_of_sorted (hp.map _) (counts_sorted s1 h1 bs) (counts_sorted s2 h2 bs)
  · intro flip
    obtain ⟨a, b, hab, hpx, himg⟩ := tie_runs s1 h1 flip
    exact ⟨a, b, hab, by decide, by decide, hpx, himg⟩

/-- Witness of the amended C10: the first-seen and the last-seen schedule. -/
theorem ranking_up_to_ties_witness :
    (firstSeen.Valid ∧ lastSeen.Valid) ∧
    ((∀ bs : List Block,
      (blockFrequencies firstSeen bs).Perm (blockFrequencies lastSeen bs) ∧
      (blockFrequencies firstSeen bs).map (fun e => e.Count) =
        (blockFrequencies lastSeen bs).map (fun e => e.Count)) ∧
    (∀ flip : Bool, ∃ a b,
      ((a = color.White ∧ b = generated 1) ∨ (a = generated 1 ∧ b = color.White)) ∧
      rgbaModel color.White = ⟨255, 255, 255, 255⟩ ∧ rgbaModel (generated 1) = ⟨50, 80, 110, 255⟩ ∧
      pixels firstSeen (List.replicate 16 0 ++ List.replicate 16 1) 254 16 = Except.ok [a, b] ∧
      processImage firstSeen (List.replicate 16 0 ++ List.replicate 16 1) 254 flip 16 =
        Except.ok ⟨1, 2, if flip = true then [[rgbaModel b], [rgbaModel a]]
          else [[rgbaModel a], [rgbaModel b]]⟩)) :=
  ⟨⟨firstSeen_valid, lastSeen_valid⟩,
    ranking_up_to_ties firstSeen lastSeen firstSeen_valid lastSeen_valid⟩

set_option maxRecDepth 100000 in
/-- C10 fails on the code. On 16 bytes of 0x00 followed by 16 bytes of 0x01, with the
default configuration, the first-seen and the last-seen schedule are both possible
runs; their ranked lists differ, their canvases differ, and in the second the 0x00
block has the generated colour and the 0x01 block is white. -/
theorem determinism_counterexample :
    firstSeen.Valid ∧ lastSeen.Valid ∧
    blockFrequencies firstSeen [List.replicate 16 0, List.replicate 16 1] ≠
      blockFrequencies lastSeen [List.replicate 16 0, List.replicate 16 1] ∧
    pixels firstSeen (List.replicate 16 0 ++ List.replicate 16 1) 254 16 =
      Except.ok [color.White, generated 1] ∧
    pixels lastSeen (List.replicate 16 0 ++ List.replicate 16 1) 254 16 =
      Except.ok [generated 1, color.White] ∧
    processImage firstSeen (List.replicate 16 0 ++ List.replicate 16 1) 254 true 16 =
      Except.ok ⟨1, 2, [[⟨50, 80, 110, 255⟩], [⟨255, 255, 255, 255⟩]]⟩ ∧
    processImage lastSeen (List.replicate 16 0 ++ List.replicate 16 1) 254 true 16 =
      Except.ok ⟨1, 2, [[⟨255, 255, 255, 255⟩], [⟨50, 80, 110, 255⟩]]⟩ ∧
    processImage firstSeen (List.replicate 16 0 ++ List.replicate 16 1) 254 true 16 ≠
      processImage lastSeen (List.replicate 16 0 ++ List.replicate 16 1) 254 true 16 := by
  have hf : pixels firstSeen (List.replicate 16 0 ++ List.replicate 16 1) 254 16 =
      Except.ok [color.White, generated 1] := by decide
  have hl : pixels lastSeen (List.replicate 16 0 ++ List.replicate 16 1) 254 16 =
      Except.ok [generated 1, color.White] := by decide
  refine ⟨firstSeen_valid, lastSeen_valid, by decide, hf, hl, ?_, ?_, ?_⟩
  · rw [processImage_two _ _ _ _ _ _ _ hf]
    decide
  · rw [processImage_two _ _ _ _ _ _ _ hl]
    decide
  · rw [processImage_two _ _ _ _ _ _ _ hf, processImage_two _ _ _ _ _ _ _ hl]
    decide

/-! ## Generated colours repeat with period 51 -/

theorem generated_eq_iff (i j : Nat) : generated i = generated j ↔ i % 51 = j % 51 := by
  rw [generated_eq, generated_eq]
  constructor
  · intro h
    injection h with h
    injection h with h1 h2 h3 h4
    omega
  · intro h
    have e1 : i * 50 % 255 = j * 50 % 255 := by omega
    have e2 : i * 80 % 255 = j * 80 % 255 := by omega
    have e3 : i * 110 % 255 = j * 110 % 255 := by omega
    rw [e1, e2, e3]

theorem generated_black_iff (i : Nat) :
    rgbaModel (generated i) = rgbaModel color.Black ↔ i % 51 = 0 := by
  rw [generated_eq]
  have hb : rgbaModel color.Black = ⟨0, 0, 0, 255⟩ := by decide
  rw [hb]
  simp only [rgbaModel, RGBA.mk.injEq, and_true]
  omega

theorem generated_ne_white (i : Nat) : rgbaModel (generated i) ≠ rgbaModel color.White := by
  rw [generated_eq]
  have hw : rgbaModel color.White = ⟨255, 255, 255, 255⟩ := by decide
  rw [hw]
  simp only [rgbaModel, ne_eq, RGBA.mk.injEq, and_true, not_and]
  omega

theorem generated_ne_fallback (i : Nat) : generated i ≠ color.Black ∧ generated i ≠ color.White := by
  constructor <;> intro h <;> cases h

/-- The colour map built from the palette of `colorsNeeded >= 2`: rank 0 is white, a
rank below `colorsNeeded - 1` has its generated colour, every later rank is black. -/
theorem colorMap_paletteEntries (ranked : List BlockFrequencifier) (colorsNeeded : Int)
    (hnd : (ranked.map (fun e => e.BlockKey)).Nodup) (h : 2 ≤ colorsNeeded) :
    ∃ cm, colorMap colorsNeeded (paletteEntries colorsNeeded) ranked = Except.ok cm ∧
      ∀ (i : Nat) (hi : i < ranked.length),
        mapGet ranked[i].BlockKey cm = some (if i = 0 then color.White
          else if (i : Int) < colorsNeeded - 1 then generated i else color.Black) := by
  obtain ⟨cm, hrun, hget, _⟩ :=
    colorMapLoop_spec colorsNeeded (paletteEntries colorsNeeded) _
      (rankColor_paletteEntries colorsNeeded h) ranked 0 [] hnd
  refine ⟨cm, hrun, ?_⟩
  intro i hi
  rw [hget i hi, Nat.zero_add]

theorem palette_ok (colorsNeeded : Int) (h : 0 ≤ colorsNeeded)
    (hcap : colorsNeeded ≤ 17592186044416) :
    palette colorsNeeded = Except.ok (paletteEntries colorsNeeded) := by
  rcases palette_cases colorsNeeded with ⟨_, h2⟩ | ⟨h1, _⟩
  · exact h2
  · rw [capRefused_small colorsNeeded h hcap] at h1
    cases h1

/-- C11, as the code has it. For every `colorsNeeded >= 2`, the palette built for it
and every ranked list, the blocks at ranks 1 through `colorsNeeded - 3` are each
assigned the colour generated for their rank. Two ranks of that range have the same
colour exactly when they are congruent modulo 51; the colour of a rank is drawn as
the black fallback (0,0,0,255) exactly when the rank is a multiple of 51, and is
never drawn white. So the colours are pairwise different and different from black
and white when `colorsNeeded <= 53`. -/
theorem generated_colours_period (ranked : List BlockFrequencifier) (colorsNeeded : Int)
    (hnd : (ranked.map (fun e => e.BlockKey)).Nodup) (h : 2 ≤ colorsNeeded)
    (pal : List Color) (hpal : palette colorsNeeded = Except.ok pal) :
    ∃ cm, colorMap colorsNeeded pal ranked = Except.ok cm ∧
      (∀ (i : Nat) (hi : i < ranked.length), 1 ≤ i → (i : Int) ≤ colorsNeeded - 3 →
        mapGet ranked[i].BlockKey cm = some (generated i) ∧
        ((mapGet ranked[i].BlockKey cm).map rgbaModel = some (rgbaModel color.Black) ↔
          i % 51 = 0) ∧
        (mapGet ranked[i].BlockKey cm).map rgbaModel ≠ some (rgbaModel color.White)) ∧
      (∀ (i j : Nat) (hi : i < ranked.length) (hj : j < ranked.length),
        1 ≤ i → (i : Int) ≤ colorsNeeded - 3 → 1 ≤ j → (j : Int) ≤ colorsNeeded - 3 →
        (mapGet ranked[i].BlockKey cm = mapGet ranked[j].BlockKey cm ↔ i % 51 = j % 51)) ∧
      (colorsNeeded ≤ 53 →
        ∀ (i j : Nat) (hi : i < ranked.length) (hj : j < ranked.length),
          1 ≤ i → (i : Int) ≤ colorsNeeded - 3 → 1 ≤ j → (j : Int) ≤ colorsNeeded - 3 → i ≠ j →
          mapGet ranked[i].BlockKey cm ≠ mapGet ranked[j].BlockKey cm ∧
          (mapGet ranked[i].BlockKey cm).map rgbaModel ≠ some (rgbaModel color.Black) ∧
          (mapGet ranked[i].BlockKey cm).map rgbaModel ≠ some (rgbaModel color.White)) := by
  rw [palette_built colorsNeeded pal hpal]
  obtain ⟨cm, hrun, hget⟩ := colorMap_paletteEntries ranked colorsNeeded hnd h
  have hgen : ∀ (i : Nat) (hi : i < ranked.length), 1 ≤ i → (i : Int) ≤ colorsNeeded - 3 →
      mapGet ranked[i].BlockKey cm = some (generated i) := by
    intro i hi h1 h2
    rw [hget i hi, if_neg (by omega), if_pos (by omega)]
  refine ⟨cm, hrun, ?_, ?_, ?_⟩
  · intro i hi h1 h2
    rw [hgen i hi h1 h2]
    refine ⟨rfl, ?_, ?_⟩
    · simp only [Option.map_some', Option.some.injEq]
      exact generated_black_iff i
    · simp only [Option.map_some', ne_eq, Option.some.injEq]
      exact generated_ne_white i
  · intro i j hi hj hi1 hi2 hj1 hj2
    rw [hgen i hi hi1 hi2, hgen j hj hj1 hj2, Option.some.injEq]
    exact generated_eq_iff i j
  · intro hsmall i j hi hj hi1 hi2 hj1 hj2 hij
    rw [hgen i hi hi1 hi2, hgen j hj hj1 hj2]
    refine ⟨?_, ?_, ?_⟩
    · rw [ne_eq, Option.some.injEq, generated_eq_iff]
      omega
    · simp only [Option.map_some', ne_eq, Option.some.injEq]
      rw [generated_black_iff]
      omega
    · simp only [Option.map_some', ne_eq, Option.some.injEq]
      exact generated_ne_white i

/-- Witness of the amended C11: four ranked blocks and the palette of six colours. -/
theorem generated_colours_period_witness :
    ((([⟨[0], 2⟩, ⟨[1], 1⟩, ⟨[2], 1⟩, ⟨[3], 1⟩] : List BlockFrequencifier).map
        (fun e => e.BlockKey)).Nodup ∧ (2 : Int) ≤ 6 ∧
      palette 6 = Except.ok (paletteEntries 6)) ∧
    ∃ cm, colorMap 6 (paletteEntries 6) [⟨[0], 2⟩, ⟨[1], 1⟩, ⟨[2], 1⟩, ⟨[3], 1⟩] = Except.ok cm ∧
      (∀ (i : Nat) (hi : i < ([⟨[0], 2⟩, ⟨[1], 1⟩, ⟨[2], 1⟩, ⟨[3], 1⟩] :
          List BlockFrequencifier).length), 1 ≤ i → (i : Int) ≤ 6 - 3 →
        mapGet ([⟨[0], 2⟩, ⟨[1], 1⟩, ⟨[2], 1⟩, ⟨[3], 1⟩] : List BlockFrequencifier)[i].BlockKey cm
          = some (generated i) ∧
        ((mapGet ([⟨[0], 2⟩, ⟨[1], 1⟩, ⟨[2], 1⟩, ⟨[3], 1⟩] :
            List BlockFrequencifier)[i].BlockKey cm).map rgbaModel
          = some (rgbaModel color.Black) ↔ i % 51 = 0) ∧
        (mapGet ([⟨[0], 2⟩, ⟨[1], 1⟩, ⟨[2], 1⟩, ⟨[3], 1⟩] :
            List BlockFrequencifier)[i].BlockKey cm).map rgbaModel
          ≠ some (rgbaModel color.White)) ∧
      (∀ (i j : Nat) (hi : i < ([⟨[0], 2⟩, ⟨[1], 1⟩, ⟨[2], 1⟩, ⟨[3], 1⟩] :
          List BlockFrequencifier).length)
        (hj : j < ([⟨[0], 2⟩, ⟨[1], 1⟩, ⟨[2], 1⟩, ⟨[3], 1⟩] : List BlockFrequencifier).length),
        1 ≤ i → (i : Int) ≤ 6 - 3 → 1 ≤ j → (j : Int) ≤ 6 - 3 →
        (mapGet ([⟨[0], 2⟩, ⟨[1], 1⟩, ⟨[2], 1⟩, ⟨[3], 1⟩] : List BlockFrequencifier)[i].BlockKey cm
          = mapGet ([⟨[0], 2⟩, ⟨[1], 1⟩, ⟨[2], 1⟩, ⟨[3], 1⟩] :
            List BlockFrequencifier)[j].BlockKey cm ↔ i % 51 = j % 51)) ∧
      ((6 : Int) ≤ 53 →
        ∀ (i j : Nat) (hi : i < ([⟨[0], 2⟩, ⟨[1], 1⟩, ⟨[2], 1⟩, ⟨[3], 1⟩] :
            List BlockFrequencifier).length)
          (hj : j < ([⟨[0], 2⟩, ⟨[1], 1⟩, ⟨[2], 1⟩, ⟨[3], 1⟩] : List BlockFrequencifier).length),
          1 ≤ i → (i : Int) ≤ 6 - 3 → 1 ≤ j → (j : Int) ≤ 6 - 3 → i ≠ j →
          mapGet ([⟨[0], 2⟩, ⟨[1], 1⟩, ⟨[2], 1⟩, ⟨[3], 1⟩] :
              List BlockFrequencifier)[i].BlockKey cm
            ≠ mapGet ([⟨[0], 2⟩, ⟨[1], 1⟩, ⟨[2], 1⟩, ⟨[3], 1⟩] :
              List BlockFrequencifier)[j].BlockKey cm ∧
          (mapGet ([⟨[0], 2⟩, ⟨[1], 1⟩, ⟨[2], 1⟩, ⟨[3], 1⟩] :
              List BlockFrequencifier)[i].BlockKey cm).map rgbaModel
            ≠ some (rgbaModel color.Black) ∧
          (mapGet ([⟨[0], 2⟩, ⟨[1], 1⟩, ⟨[2], 1⟩, ⟨[3], 1⟩] :
              List BlockFrequencifier)[i].BlockKey cm).map rgbaModel
            ≠ some (rgbaModel color.White)) :=
  ⟨⟨by decide, by decide, by decide⟩,
    generated_colours_period [⟨[0], 2⟩, ⟨[1], 1⟩, ⟨[2], 1⟩, ⟨[3], 1⟩] 6 (by decide) (by decide)
      (paletteEntries 6) (by decide)⟩

set_option maxRecDepth 100000 in
/-- C11 fails on the code. With the default 254 colours and 53 distinct blocks, the
blocks at ranks 1 and 52 are both assigned (50,80,110,255), and the block at rank 51
is assigned (0,0,0,255), which is drawn as the black fallback. -/
theorem unique_colours_counterexample :
    ∃ cm, palette 254 = Except.ok (paletteEntries 254) ∧
      colorMap 254 (paletteEntries 254)
        ((List.range 53).map (fun k => (⟨[Fin.ofNat k], 1⟩ : BlockFrequencifier))) = Except.ok cm ∧
      mapGet [1] cm = some (Color.rgba ⟨50, 80, 110, 255⟩) ∧
      mapGet [52] cm = some (Color.rgba ⟨50, 80, 110, 255⟩) ∧
      mapGet [51] cm = some (Color.rgba ⟨0, 0, 0, 255⟩) ∧
      rgbaModel (Color.rgba ⟨0, 0, 0, 255⟩) = rgbaModel color.Black := by
  obtain ⟨cm, hrun, hget⟩ := colorMap_paletteEntries
    ((List.range 53).map (fun k => (⟨[Fin.ofNat k], 1⟩ : BlockFrequencifier))) 254
    (by decide) (by decide)
  refine ⟨cm, by decide, hrun, ?_, ?_, ?_, by decide⟩
  · exact hget 1 (by decide)
  · exact hget 52 (by decide)
  · exact hget 51 (by decide)

/-! ## Where the black fallback starts -/

/-- C12, as the code has it. For every `colorsNeeded >= 3`, the palette built for it
and every ranked list, every block at rank `colorsNeeded - 1` or later is assigned
black, and the block at rank `colorsNeeded - 2` is assigned the colour generated for
that rank, which is not the fallback entry of the palette. -/
theorem fallback_threshold (ranked : List BlockFrequencifier) (colorsNeeded : Int)
    (hnd : (ranked.map (fun e => e.BlockKey)).Nodup) (h : 3 ≤ colorsNeeded)
    (pal : List Color) (hpal : palette colorsNeeded = Except.ok pal) :
    ∃ cm, colorMap colorsNeeded pal ranked = Except.ok cm ∧
      (∀ (i : Nat) (hi : i < ranked.length), colorsNeeded - 1 ≤ (i : Int) →
        mapGet ranked[i].BlockKey cm = some color.Black) ∧
      (∀ (i : Nat) (hi : i < ranked.length), (i : Int) = colorsNeeded - 2 →
        mapGet ranked[i].BlockKey cm = some (generated i) ∧
        pal[i]? = some (generated i) ∧ generated i ≠ color.Black) := by
  rw [palette_built colorsNeeded pal hpal]
  obtain ⟨cm, hrun, hget⟩ := colorMap_paletteEntries ranked colorsNeeded hnd (by omega)
  refine ⟨cm, hrun, ?_, ?_⟩
  · intro i hi hge
    rw [hget i hi, if_neg (by omega), if_neg (by omega)]
  · intro i hi heq
    refine ⟨?_, paletteEntries_middle colorsNeeded i (by omega) (by omega),
      (generated_ne_fallback i).1⟩
    rw [hget i hi, if_neg (by omega), if_pos (by omega)]

/-- Witness of the amended C12: three ranked blocks and the palette of three
colours. -/
theorem fallback_threshold_witness :
    ((([⟨[0], 2⟩, ⟨[1], 1⟩, ⟨[2], 1⟩] : List BlockFrequencifier).map
        (fun e => e.BlockKey)).Nodup ∧ (3 : Int) ≤ 3 ∧
      palette 3 = Except.ok (paletteEntries 3)) ∧
    ∃ cm, colorMap 3 (paletteEntries 3) [⟨[0], 2⟩, ⟨[1], 1⟩, ⟨[2], 1⟩] = Except.ok cm ∧
      (∀ (i : Nat) (hi : i < ([⟨[0], 2⟩, ⟨[1], 1⟩, ⟨[2], 1⟩] : List BlockFrequencifier).length),
        (3 : Int) - 1 ≤ (i : Int) →
        mapGet ([⟨[0], 2⟩, ⟨[1], 1⟩, ⟨[2], 1⟩] : List BlockFrequencifier)[i].BlockKey cm
          = some color.Black) ∧
      (∀ (i : Nat) (hi : i < ([⟨[0], 2⟩, ⟨[1], 1⟩, ⟨[2], 1⟩] : List BlockFrequencifier).length),
        (i : Int) = 3 - 2 →
        mapGet ([⟨[0], 2⟩, ⟨[1], 1⟩, ⟨[2], 1⟩] : List BlockFrequencifier)[i].BlockKey cm
          = some (generated i) ∧
        (paletteEntries 3)[i]? = some (generated i) ∧ generated i ≠ color.Black) :=
  ⟨⟨by decide, by decide, by decide⟩,
    fallback_threshold [⟨[0], 2⟩, ⟨[1], 1⟩, ⟨[2], 1⟩] 3 (by decide) (by decide)
      (paletteEntries 3) (by decide)⟩

/-- C12 fails on the code. With `colorsNeeded = 3` and a ranked list of two entries,
more than `colorsNeeded - 2`, the block at rank `colorsNeeded - 2 = 1` is assigned the
generated colour (50,80,110,255), which is neither black nor drawn as black. -/
theorem fallback_counterexample :
    palette 3 = Except.ok [color.White, Color.rgba ⟨50, 80, 110, 255⟩, color.Black] ∧
    colorMap 3 [color.White, Color.rgba ⟨50, 80, 110, 255⟩, color.Black]
        [⟨[0], 2⟩, ⟨[1], 1⟩] =
      Except.ok [([0], color.White), ([1], Color.rgba ⟨50, 80, 110, 255⟩)] ∧
    mapGet [1] [([0], color.White), ([1], Color.rgba ⟨50, 80, 110, 255⟩)] =
      some (Color.rgba ⟨50, 80, 110, 255⟩) ∧
    Color.rgba ⟨50, 80, 110, 255⟩ ≠ color.Black ∧
    rgbaModel (Color.rgba ⟨50, 80, 110, 255⟩) ≠ rgbaModel color.Black := by
  decide

/-! ## Runs without and with a fault -/

/-- Whatever `colorsNeeded` is, the palette built for it gives every rank a colour:
no index of the assignment loop is out of range. -/
theorem rankColor_total (colorsNeeded : Int) :
    ∃ f : Nat → Color, ∀ i, rankColor colorsNeeded (paletteEntries colorsNeeded) i =
      Except.ok (f i) := by
  by_cases h : 2 ≤ colorsNeeded
  · exact ⟨_, rankColor_paletteEntries colorsNeeded h⟩
  · refine ⟨fun _ => color.Black, ?_⟩
    intro i
    have e : (colorsNeeded - 1 - 1).toNat = 0 := by omega
    unfold rankColor
    rw [if_neg (by omega)]
    simp [paletteEntries, e, index]

/-- The assignment loop ends without a fault when every rank has a colour, and then
every value of the map is a colour already in it or a colour of a rank. -/
theorem colorMapLoop_total (colorsNeeded : Int) (pal : List Color) (f : Nat → Color)
    (hf : ∀ i, rankColor colorsNeeded pal i = Except.ok (f i)) (P : Color → Prop)
    (hP : ∀ i, P (f i)) :
    ∀ (ranked : List BlockFrequencifier) (i : Nat) (cm : List (Block × Color)),
      (∀ kv ∈ cm, P kv.2) →
      ∃ cm2, colorMapLoop colorsNeeded pal i ranked cm = Except.ok cm2 ∧ ∀ kv ∈ cm2, P kv.2 := by
  have hset : ∀ (key : Block) (clr : Color) (m : List (Block × Color)), P clr →
      (∀ kv ∈ m, P kv.2) → ∀ kv ∈ mapSet key clr m, P kv.2 := by
    intro key clr m hclr
    induction m with
    | nil =>
      intro _ kv hkv
      simp only [mapSet, List.mem_singleton] at hkv
      rw [hkv]
      exact hclr
    | cons p m ih =>
      obtain ⟨k, v⟩ := p
      intro hm kv hkv
      by_cases hk : k = key
      · simp only [mapSet, hk, if_true, List.mem_cons] at hkv
        rcases hkv with e | e
        · rw [e]
          exact hclr
        · exact hm kv (List.mem_cons_of_mem _ e)
      · simp only [mapSet, hk, if_false, List.mem_cons] at hkv
        rcases hkv with e | e
        · rw [e]
          exact hm (k, v) (List.mem_cons_self _ _)
        · exact ih (fun kv h => hm kv (List.mem_cons_of_mem _ h)) kv e
  intro ranked
  induction ranked with
  | nil =>
    intro i cm hcm
    exact ⟨cm, rfl, hcm⟩
  | cons bf rest ih =>
    intro i cm hcm
    obtain ⟨cm2, hrun, hall⟩ := ih (i + 1) (mapSet bf.BlockKey (f i) cm)
      (hset _ _ _ (hP i) hcm)
    refine ⟨cm2, ?_, hall⟩
    simp only [colorMapLoop, hf i]
    exact hrun

theorem lookupColor_of_values (cm : List (Block × Color)) (P : Color → Prop)
    (hcm : ∀ kv ∈ cm, P kv.2) (hb : P color.Black) (b : Block) : P (lookupColor cm b) := by
  unfold lookupColor
  induction cm with
  | nil => exact hb
  | cons p m ih =>
    obtain ⟨k, v⟩ := p
    by_cases hk : k = b
    · simp only [mapGet, hk, if_true]
      exact hcm (k, v) (List.mem_cons_self _ _)
    · simp only [mapGet, hk, if_false]
      exact ih (fun kv h => hcm kv (List.mem_cons_of_mem _ h))

theorem blocks_ok (bytes : List Byte) :
    ∃ bs, blocks bytes = Except.ok bs ∧ bs.length = bytes.length / 16 := by
  have hlen := length_truncateBytes bytes
  obtain ⟨bs, hbs, hl, _, _⟩ :=
    blocksLoop_range (truncateBytes bytes) (bytes.length / blockSize) 0 (by omega)
  refine ⟨bs, ?_, hl⟩
  unfold blocks
  rw [hlen, blockStarts_mul]
  exact hbs

/-- The stages of a run on an input of at least one block with `1 <= pixWidth <= 16`:
the blocks are cut and every rank has a colour; then either one of the two calls of
`make` refuses its capacity and the run panics there, or every stage succeeds and an
image is returned. -/
theorem processImage_stages (s : Schedule) (bytes : List Byte) (colorsNeeded : Int) (flip : Bool)
    (pixWidth : Int) (hlen : 16 ≤ bytes.length) (h1 : 1 ≤ pixWidth) (h16 : pixWidth ≤ 16) :
    ∃ bs cm, blocks bytes = Except.ok bs ∧ bs.length = bytes.length / 16 ∧
      colorMap colorsNeeded (paletteEntries colorsNeeded) (blockFrequencies s bs) = Except.ok cm ∧
      1 ≤ 16 / pixWidth.toNat ∧
      ((capRefused colorsNeeded = true ∧
          palette colorsNeeded = Except.error Fault.capOutOfRange ∧
          pixels s bytes colorsNeeded pixWidth = Except.error Fault.capOutOfRange ∧
          processImage s bytes colorsNeeded flip pixWidth =
            Except.error Fault.capOutOfRange) ∨
        (capRefused colorsNeeded = false ∧
          capRefused (wrap64 ((bs.length : Int) * pixWidth)) = true ∧
          palette colorsNeeded = Except.ok (paletteEntries colorsNeeded) ∧
          pixelData bs cm pixWidth = Except.error Fault.capOutOfRange ∧
          pixels s bytes colorsNeeded pixWidth = Except.error Fault.capOutOfRange ∧
          processImage s bytes colorsNeeded flip pixWidth =
            Except.error Fault.capOutOfRange) ∨
        (capRefused colorsNeeded = false ∧
          capRefused (wrap64 ((bs.length : Int) * pixWidth)) = false ∧
          palette colorsNeeded = Except.ok (paletteEntries colorsNeeded) ∧
          ∃ px ht, pixelData bs cm pixWidth = Except.ok px ∧
            px = bs.flatMap (fun b => List.replicate (16 / pixWidth.toNat) (lookupColor cm b)) ∧
            px.length = bs.length * (16 / pixWidth.toNat) ∧ 1 ≤ px.length ∧
            pixels s bytes colorsNeeded pixWidth = Except.ok px ∧
            1 ≤ width px.length ∧ height px.length = Except.ok ht ∧
            processImage s bytes colorsNeeded flip pixWidth =
              Except.ok (render px (width px.length) ht flip))) := by
  obtain ⟨bs, hbs, hbl⟩ := blocks_ok bytes
  obtain ⟨f, hf⟩ := rankColor_total colorsNeeded
  obtain ⟨cm, hcm, _⟩ := colorMapLoop_total colorsNeeded (paletteEntries colorsNeeded) f hf
    (fun _ => True) (fun _ => trivial) (blockFrequencies s bs) 0 [] (fun _ _ => trivial)
  have hne : pixWidth ≠ 0 := by omega
  have hr : 1 ≤ 16 / pixWidth.toNat := by
    rw [Nat.one_le_div_iff (by omega)]
    omega
  refine ⟨bs, cm, hbs, hbl, hcm, hr, ?_⟩
  rcases palette_cases colorsNeeded with ⟨hc0, hpal⟩ | ⟨hc1, hpal⟩
  · right
    have hpix : pixels s bytes colorsNeeded pixWidth = pixelData bs cm pixWidth := by
      unfold pixels
      rw [hbs]
      simp only [hpal]
      simp only [colorMap, hcm]
    rcases pixelData_cases bs cm pixWidth hne with ⟨hp0, hpx⟩ | ⟨hp1, hpx⟩
    · right
      rw [tdiv_blockSize pixWidth h1] at hpx
      have hb1 : 1 ≤ bs.length := by
        rw [hbl]
        omega
      have hplen : (bs.flatMap (fun b =>
          List.replicate (16 / pixWidth.toNat) (lookupColor cm b))).length =
          bs.length * (16 / pixWidth.toNat) := length_expand _ _ bs
      have hpos : 1 ≤ (bs.flatMap (fun b =>
          List.replicate (16 / pixWidth.toNat) (lookupColor cm b))).length := by
        rw [hplen]
        exact Nat.mul_pos hb1 hr
      obtain ⟨ht, hht, _⟩ := height_spec _ hpos
      have hpixels : pixels s bytes colorsNeeded pixWidth = Except.ok
          (bs.flatMap (fun b => List.replicate (16 / pixWidth.toNat) (lookupColor cm b))) := by
        rw [hpix, hpx]
      refine ⟨hc0, hp0, hpal, _, ht, hpx, rfl, hplen, hpos, hpixels, width_pos _ hpos, hht, ?_⟩
      unfold processImage
      rw [hpixels]
      simp only [hht]
    · left
      have hpixels : pixels s bytes colorsNeeded pixWidth =
          Except.error Fault.capOutOfRange := by
        rw [hpix, hpx]
      refine ⟨hc0, hp1, hpal, hpx, hpixels, ?_⟩
      unfold processImage
      rw [hpixels]
  · left
    have hpixels : pixels s bytes colorsNeeded pixWidth = Except.error Fault.capOutOfRange := by
      unfold pixels
      rw [hbs]
      simp only [hpal]
    refine ⟨hc1, hpal, hpixels, ?_⟩
    unfold processImage
    rw [hpixels]

theorem rankColor_small (colorsNeeded : Int) (h : colorsNeeded < 2) (i : Nat) :
    rankColor colorsNeeded (paletteEntries colorsNeeded) i = Except.ok color.Black := by
  have e : (colorsNeeded - 1 - 1).toNat = 0 := by omega
  unfold rankColor
  rw [if_neg (by omega)]
  simp [paletteEntries, e, index]

theorem paletteEntries_small (colorsNeeded : Int) (h : colorsNeeded < 2) :
    paletteEntries colorsNeeded = [color.White, color.Black] := by
  have e : (colorsNeeded - 1 - 1).toNat = 0 := by omega
  simp [paletteEntries, e]

/-- C18, as the code has it. For every input of at least 16 bytes, every
`colorsNeeded >= 2`, every `pixWidth` from 1 to 16, both values of `flip` and every
schedule, the blocks are cut without a slice out of bounds and `pixWidth` is not zero
where 16 is divided by it. The run of `processImage` ends either in the panic of a
call of `make` that refuses its capacity or in an image, and it ends in that panic
exactly when the check of the capacity refuses `colorsNeeded` or refuses the 64-bit
product `len(blocks) * pixWidth`. Whenever the palette is built, every palette index
of the assignment loop is below the length of the palette and every rank has a
colour; whenever the pixel sequence is built too, the width is at least 1 where the
height is computed and an image is returned. -/
theorem fault_only_in_make (s : Schedule) (bytes : List Byte) (colorsNeeded : Int) (flip : Bool)
    (pixWidth : Int) (hlen : 16 ≤ bytes.length) (hc : 2 ≤ colorsNeeded) (h1 : 1 ≤ pixWidth)
    (h16 : pixWidth ≤ 16) :
    ∃ bs, blocks bytes = Except.ok bs ∧ pixWidth ≠ 0 ∧
      (processImage s bytes colorsNeeded flip pixWidth = Except.error Fault.capOutOfRange ∨
        ∃ img, processImage s bytes colorsNeeded flip pixWidth = Except.ok img) ∧
      (processImage s bytes colorsNeeded flip pixWidth = Except.error Fault.capOutOfRange ↔
        (capRefused colorsNeeded = true ∨
          capRefused (wrap64 ((bs.length : Int) * pixWidth)) = true)) ∧
      ∀ pal, palette colorsNeeded = Except.ok pal →
        (∀ i : Nat, ((i : Int) < colorsNeeded - 1 → i < pal.length) ∧
          pal.length - 1 < pal.length ∧ ∃ clr, rankColor colorsNeeded pal i = Except.ok clr) ∧
        ∃ cm, colorMap colorsNeeded pal (blockFrequencies s bs) = Except.ok cm ∧
          ∀ px, pixelData bs cm pixWidth = Except.ok px →
            ∃ ht, 1 ≤ width px.length ∧ height px.length = Except.ok ht ∧
              processImage s bytes colorsNeeded flip pixWidth =
                Except.ok (render px (width px.length) ht flip) := by
  obtain ⟨bs, cm, hbs, _, hcm, _, hcases⟩ :=
    processImage_stages s bytes colorsNeeded flip pixWidth hlen h1 h16
  refine ⟨bs, hbs, by omega, ?_, ?_, ?_⟩
  · rcases hcases with ⟨_, _, _, hrun⟩ | ⟨_, _, _, _, _, hrun⟩ |
      ⟨_, _, _, px, ht, _, _, _, _, _, _, _, hrun⟩
    · exact Or.inl hrun
    · exact Or.inl hrun
    · exact Or.inr ⟨_, hrun⟩
  · rcases hcases with ⟨hc1, _, _, hrun⟩ | ⟨_, hp1, _, _, _, hrun⟩ |
      ⟨hc0, hp0, _, px, ht, _, _, _, _, _, _, _, hrun⟩
    · exact ⟨fun _ => Or.inl hc1, fun _ => hrun⟩
    · exact ⟨fun _ => Or.inr hp1, fun _ => hrun⟩
    · constructor
      · intro h
        rw [hrun] at h
        cases h
      · intro h
        rcases h with h | h
        · rw [hc0] at h
          cases h
        · rw [hp0] at h
          cases h
  · intro pal hpal
    have hpe := palette_built colorsNeeded pal hpal
    subst hpe
    refine ⟨?_, cm, hcm, ?_⟩
    · intro i
      have hl := length_paletteEntries colorsNeeded
      exact ⟨fun hi => by omega, by omega, _, rankColor_paletteEntries colorsNeeded hc i⟩
    · intro px hpx
      rcases hcases with ⟨_, hpal2, _, _⟩ | ⟨_, _, _, hpx2, _, _⟩ |
        ⟨_, _, _, px2, ht, hpx2, _, _, _, _, hw, hht, hrun⟩
      · rw [hpal2] at hpal
        cases hpal
      · rw [hpx2] at hpx
        cases hpx
      · have hpp : px = px2 := Except.ok.inj (hpx.symm.trans hpx2)
        rw [hpp]
        exact ⟨ht, hw, hht, hrun⟩

set_option maxRecDepth 100000 in
/-- Witness of the amended C18: one block of zero bytes under the default
configuration, where the palette of 254 colours is built. -/
theorem fault_only_in_make_witness :
    (16 ≤ (List.replicate 16 (0 : Byte)).length ∧ (2 : Int) ≤ 254 ∧ (1 : Int) ≤ 16 ∧
      (16 : Int) ≤ 16 ∧ palette 254 = Except.ok (paletteEntries 254)) ∧
    ∃ bs, blocks (List.replicate 16 (0 : Byte)) = Except.ok bs ∧ (16 : Int) ≠ 0 ∧
      (processImage firstSeen (List.replicate 16 (0 : Byte)) 254 true 16 =
          Except.error Fault.capOutOfRange ∨
        ∃ img, processImage firstSeen (List.replicate 16 (0 : Byte)) 254 true 16 =
          Except.ok img) ∧
      (processImage firstSeen (List.replicate 16 (0 : Byte)) 254 true 16 =
          Except.error Fault.capOutOfRange ↔
        (capRefused 254 = true ∨ capRefused (wrap64 ((bs.length : Int) * 16)) = true)) ∧
      ∀ pal, palette 254 = Except.ok pal →
        (∀ i : Nat, ((i : Int) < 254 - 1 → i < pal.length) ∧
          pal.length - 1 < pal.length ∧ ∃ clr, rankColor 254 pal i = Except.ok clr) ∧
        ∃ cm, colorMap 254 pal (blockFrequencies firstSeen bs) = Except.ok cm ∧
          ∀ px, pixelData bs cm 16 = Except.ok px →
            ∃ ht, 1 ≤ width px.length ∧ height px.length = Except.ok ht ∧
              processImage firstSeen (List.replicate 16 (0 : Byte)) 254 true 16 =
                Except.ok (render px (width px.length) ht true) :=
  ⟨⟨by decide, by decide, by decide, by decide, by decide⟩,
    fault_only_in_make firstSeen (List.replicate 16 0) 254 true 16 (by decide) (by decide)
      (by decide) (by decide)⟩

/-- C18 fails on the code. On an input of two blocks with `colorsNeeded = 2^45`,
`pixWidth = 16` and `flip = true`, all within the ranges of the claim, the call
`make([]color.Color, 0, colorsNeeded)` refuses the capacity, since `2^45` entries of
16 bytes exceed the largest allocation, and `processImage` ends in the panic
`makeslice: cap out of range` and returns no image. -/
theorem huge_palette_fault :
    16 ≤ (List.replicate 32 (0 : Byte)).length ∧ (2 : Int) ≤ 35184372088832 ∧
    capRefused 35184372088832 = true ∧
    palette 35184372088832 = Except.error Fault.capOutOfRange ∧
    processImage firstSeen (List.replicate 32 0) 35184372088832 true 16 =
      Except.error Fault.capOutOfRange ∧
    ¬ ∃ img, processImage firstSeen (List.replicate 32 0) 35184372088832 true 16 =
      Except.ok img := by
  have hrun : processImage firstSeen (List.replicate 32 0) 35184372088832 true 16 =
      Except.error Fault.capOutOfRange := by decide
  refine ⟨by decide, by decide, by decide, by decide, hrun, ?_⟩
  intro h
  obtain ⟨img, himg⟩ := h
  rw [hrun] at himg
  cases himg

/-- On an input shorter than one block, once the palette is built, no block is cut,
the pixel sequence is empty, the width is 0 and the division for the height panics. -/
theorem short_input_fault (s : Schedule) (bytes : List Byte) (colorsNeeded : Int) (flip : Bool)
    (pixWidth : Int) (hlen : bytes.length < 16) (pal : List Color)
    (hpal : palette colorsNeeded = Except.ok pal) :
    blocks bytes = Except.ok [] ∧ pixels s bytes colorsNeeded pixWidth = Except.ok [] ∧
      width 0 = 0 ∧
      processImage s bytes colorsNeeded flip pixWidth = Except.error Fault.divideByZero := by
  have hpe := palette_built colorsNeeded pal hpal
  subst hpe
  obtain ⟨bs, hbs, hbl⟩ := blocks_ok bytes
  have h0 : bs = [] := by
    apply List.eq_nil_of_length_eq_zero
    rw [hbl]
    omega
  subst h0
  obtain ⟨f, hf⟩ := rankColor_total colorsNeeded
  obtain ⟨cm, hcm, _⟩ := colorMapLoop_total colorsNeeded (paletteEntries colorsNeeded) f hf
    (fun _ => True) (fun _ => trivial) (blockFrequencies s []) 0 [] (fun _ _ => trivial)
  have hcap : capRefused (wrap64 (((([] : List Block).length : Nat) : Int) * pixWidth)) =
      false := by
    simp only [List.length_nil, Nat.cast_zero, zero_mul]
    decide
  have hpixels : pixels s bytes colorsNeeded pixWidth = Except.ok [] := by
    unfold pixels
    rw [hbs]
    simp only [hpal, colorMap, hcm]
    unfold pixelData
    rw [hcap]
    rfl
  have hw : width 0 = 0 := by simp [width]
  refine ⟨hbs, hpixels, hw, ?_⟩
  unfold processImage
  rw [hpixels]
  simp [height, hw]

set_option maxRecDepth 100000 in
/-- C13 fails on the code. On the empty input and on an input of 15 bytes, under the
default configuration, no error is raised before the dimensions are computed: the
pixel sequence is empty, the width is 0 and `totalPixels / width` panics with a
division by zero. -/
theorem short_input_divides_by_zero :
    pixels firstSeen [] 254 16 = Except.ok [] ∧ width 0 = 0 ∧
    processImage firstSeen [] 254 true 16 = Except.error Fault.divideByZero ∧
    pixels firstSeen (List.replicate 15 0) 254 16 = Except.ok [] ∧
    processImage firstSeen (List.replicate 15 0) 254 true 16 =
      Except.error Fault.divideByZero :=
  have hpal : palette 254 = Except.ok (paletteEntries 254) := by decide
  ⟨(short_input_fault firstSeen [] 254 true 16 (by decide) _ hpal).2.1,
    (short_input_fault firstSeen [] 254 true 16 (by decide) _ hpal).2.2.1,
    (short_input_fault firstSeen [] 254 true 16 (by decide) _ hpal).2.2.2,
    (short_input_fault firstSeen (List.replicate 15 0) 254 true 16 (by decide) _ hpal).2.1,
    (short_input_fault firstSeen (List.replicate 15 0) 254 true 16 (by decide) _ hpal).2.2.2⟩

/-- C14, as the code has it. For every input of at least 16 bytes, every
`colorsNeeded` and every `pixWidth` from 1 to 16 (dividing 16 or not), the run ends
in the panic of a call of `make` that refuses its capacity or in a canvas, never in
a configuration error. For `colorsNeeded` 0 or 1 the palette is built, and it is
white, black, of length 2. Whenever the palette is built and the pixel sequence is
computed, every block is drawn `16 div pixWidth` times and a canvas is returned, and
for `colorsNeeded` below 2 every pixel is black. -/
theorem unvalidated_configuration (s : Schedule) (bytes : List Byte) (colorsNeeded : Int)
    (flip : Bool) (pixWidth : Int) (hlen : 16 ≤ bytes.length)
    (h1 : 1 ≤ pixWidth) (h16 : pixWidth ≤ 16) :
    (processImage s bytes colorsNeeded flip pixWidth = Except.error Fault.capOutOfRange ∨
      ∃ img, processImage s bytes colorsNeeded flip pixWidth = Except.ok img) ∧
    (0 ≤ colorsNeeded → colorsNeeded < 2 →
      palette colorsNeeded = Except.ok [color.White, color.Black]) ∧
    ∀ pal px, palette colorsNeeded = Except.ok pal →
      pixels s bytes colorsNeeded pixWidth = Except.ok px →
        px.length = bytes.length / 16 * (16 / pixWidth.toNat) ∧
        (∃ img, processImage s bytes colorsNeeded flip pixWidth = Except.ok img) ∧
        (colorsNeeded < 2 →
          pal = [color.White, color.Black] ∧ ∀ clr ∈ px, clr = color.Black) := by
  obtain ⟨bs, cm, hbs, hbl, hcm, _, hcases⟩ :=
    processImage_stages s bytes colorsNeeded flip pixWidth hlen h1 h16
  refine ⟨?_, ?_, ?_⟩
  · rcases hcases with ⟨_, _, _, hrun⟩ | ⟨_, _, _, _, _, hrun⟩ |
      ⟨_, _, _, px, ht, _, _, _, _, _, _, _, hrun⟩
    · exact Or.inl hrun
    · exact Or.inl hrun
    · exact Or.inr ⟨_, hrun⟩
  · intro h0 h2
    rw [palette_ok colorsNeeded h0 (by omega), paletteEntries_small colorsNeeded h2]
  · intro pal px hpal hpx
    have hpe := palette_built colorsNeeded pal hpal
    subst hpe
    rcases hcases with ⟨_, hpal2, _, _⟩ | ⟨_, _, _, _, hpx2, _⟩ |
      ⟨_, _, _, px2, ht, _, hform, hplen, _, hpx2, _, _, hrun⟩
    · rw [hpal2] at hpal
      cases hpal
    · rw [hpx2] at hpx
      cases hpx
    · have hpp : px = px2 := Except.ok.inj (hpx.symm.trans hpx2)
      rw [hpp]
      refine ⟨by rw [hplen, hbl], ⟨_, hrun⟩, ?_⟩
      intro hsmall
      refine ⟨paletteEntries_small colorsNeeded hsmall, ?_⟩
      obtain ⟨cm2, hcm2, hall⟩ := colorMapLoop_total colorsNeeded (paletteEntries colorsNeeded)
        (fun _ => color.Black) (rankColor_small colorsNeeded hsmall) (fun c => c = color.Black)
        (fun _ => rfl) (blockFrequencies s bs) 0 [] (by simp)
      have hsame : cm = cm2 := by
        have := hcm.symm.trans hcm2
        exact Except.ok.inj this
      subst hsame
      intro clr hclr
      rw [hform, List.mem_flatMap] at hclr
      obtain ⟨b, _, hb⟩ := hclr
      rw [(List.mem_replicate.mp hb).2]
      exact lookupColor_of_values cm (fun c => c = color.Black) hall rfl b

/-- Witness of the amended C14: one block, `colorsNeeded = 1` and `pixWidth = 3`,
where the palette is built and five pixels are computed. -/
theorem unvalidated_configuration_witness :
    (16 ≤ (List.replicate 16 (0 : Byte)).length ∧ (1 : Int) ≤ 3 ∧ (3 : Int) ≤ 16 ∧
      palette 1 = Except.ok [color.White, color.Black] ∧
      pixels firstSeen (List.replicate 16 (0 : Byte)) 1 3 =
        Except.ok (List.replicate 5 color.Black)) ∧
    ((processImage firstSeen (List.replicate 16 (0 : Byte)) 1 true 3 =
        Except.error Fault.capOutOfRange ∨
      ∃ img, processImage firstSeen (List.replicate 16 (0 : Byte)) 1 true 3 = Except.ok img) ∧
    ((0 : Int) ≤ 1 → (1 : Int) < 2 → palette 1 = Except.ok [color.White, color.Black]) ∧
    ∀ pal px, palette 1 = Except.ok pal →
      pixels firstSeen (List.replicate 16 (0 : Byte)) 1 3 = Except.ok px →
        px.length = (List.replicate 16 (0 : Byte)).length / 16 * (16 / (3 : Int).toNat) ∧
        (∃ img, processImage firstSeen (List.replicate 16 (0 : Byte)) 1 true 3 =
          Except.ok img) ∧
        ((1 : Int) < 2 →
          pal = [color.White, color.Black] ∧ ∀ clr ∈ px, clr = color.Black)) :=
  ⟨⟨by decide, by decide, by decide, by decide, by decide⟩,
    unvalidated_configuration firstSeen (List.replicate 16 0) 1 true 3 (by decide)
      (by decide) (by decide)⟩

theorem processImage_eval (s : Schedule) (bytes : List Byte) (colorsNeeded pixWidth : Int)
    (flip : Bool) (px : List Color) (w ht : Nat)
    (h : pixels s bytes colorsNeeded pixWidth = Except.ok px)
    (hw1 : w * w ≤ px.length) (hw2 : px.length < (w + 1) * (w + 1)) (hw : 0 < w)
    (hht : ht = if px.length % w ≠ 0 then px.length / w + 1 else px.length / w) :
    processImage s bytes colorsNeeded flip pixWidth = Except.ok (render px w ht flip) := by
  have hwidth := width_eq px.length w hw1 hw2
  unfold processImage
  rw [h]
  simp only [height, hwidth]
  rw [if_neg (by omega)]
  by_cases hr : px.length % w ≠ 0
  · rw [if_pos hr] at hht
    rw [if_pos hr, hht]
  · rw [if_neg hr] at hht
    rw [if_neg hr, hht]

set_option maxRecDepth 100000 in
/-- C14 fails on the code. With `colorsNeeded = 1` the palette white, black of length
2 is built and a canvas of black pixels is returned; with `pixWidth = 3`, which does
not divide 16, a block is drawn 5 times and a canvas is returned. -/
theorem configuration_counterexample :
    palette 1 = Except.ok [color.White, color.Black] ∧
    (([color.White, color.Black] : List Color).length : Int) ≠ 1 ∧
    processImage firstSeen (List.replicate 32 0) 1 true 16 =
      Except.ok ⟨1, 2, [[⟨0, 0, 0, 255⟩], [⟨0, 0, 0, 255⟩]]⟩ ∧
    processImage firstSeen (List.replicate 16 0) 254 true 3 =
      Except.ok ⟨2, 3, [[⟨255, 255, 255, 255⟩, ⟨0, 0, 0, 0⟩],
        [⟨255, 255, 255, 255⟩, ⟨255, 255, 255, 255⟩],
        [⟨255, 255, 255, 255⟩, ⟨255, 255, 255, 255⟩]]⟩ := by
  have h1 : pixels firstSeen (List.replicate 32 0) 1 16 =
      Except.ok [color.Black, color.Black] := by decide
  have h2 : pixels firstSeen (List.replicate 16 0) 254 3 =
      Except.ok (List.replicate 5 color.White) := by decide
  refine ⟨by decide, by decide, ?_, ?_⟩
  · rw [processImage_eval _ _ _ _ _ _ 1 2 h1 (by decide) (by decide) (by decide) (by decide)]
    decide
  · rw [processImage_eval _ _ _ _ _ _ 2 3 h2 (by decide) (by decide) (by decide) (by decide)]
    decide

/-- With `pixWidth` above 16 every block is drawn zero times: on every input, unless a
call of `make` refuses its capacity, the pixel sequence is empty and the same
division by a zero width panics. -/
theorem wide_pixel_fault (s : Schedule) (bytes : List Byte) (colorsNeeded : Int) (flip : Bool)
    (pixWidth : Int) (hp : 16 < pixWidth) :
    processImage s bytes colorsNeeded flip pixWidth = Except.error Fault.capOutOfRange ∨
      (pixels s bytes colorsNeeded pixWidth = Except.ok [] ∧
        processImage s bytes colorsNeeded flip pixWidth =
          Except.error Fault.divideByZero) := by
  obtain ⟨bs, hbs, _⟩ := blocks_ok bytes
  obtain ⟨f, hf⟩ := rankColor_total colorsNeeded
  obtain ⟨cm, hcm, _⟩ := colorMapLoop_total colorsNeeded (paletteEntries colorsNeeded) f hf
    (fun _ => True) (fun _ => trivial) (blockFrequencies s bs) 0 [] (fun _ _ => trivial)
  have hr : 16 / pixWidth.toNat = 0 := Nat.div_eq_of_lt (by omega)
  rcases palette_cases colorsNeeded with ⟨_, hpal⟩ | ⟨_, hpal⟩
  · have hpix : pixels s bytes colorsNeeded pixWidth = pixelData bs cm pixWidth := by
      unfold pixels
      rw [hbs]
      simp only [hpal]
      simp only [colorMap, hcm]
    rcases pixelData_cases bs cm pixWidth (by omega) with ⟨_, hpx⟩ | ⟨_, hpx⟩
    · right
      rw [tdiv_blockSize pixWidth (by omega), hr] at hpx
      have hnil : bs.flatMap (fun b => List.replicate 0 (lookupColor cm b)) = [] := by
        apply List.eq_nil_of_length_eq_zero
        rw [length_expand, Nat.mul_zero]
      rw [hnil] at hpx
      have hpixels : pixels s bytes colorsNeeded pixWidth = Except.ok [] := by
        rw [hpix, hpx]
      refine ⟨hpixels, ?_⟩
      unfold processImage
      rw [hpixels]
      simp [height, width]
    · left
      unfold processImage
      rw [hpix, hpx]
  · left
    have hpixels : pixels s bytes colorsNeeded pixWidth = Except.error Fault.capOutOfRange := by
      unfold pixels
      rw [hbs]
      simp only [hpal]
    unfold processImage
    rw [hpixels]

/-! ## Layout of the canvas -/

theorem Set_wf (img : Image) (x y : Int) (clr : Color)
    (hwf : img.rows.length = img.height ∧ ∀ r ∈ img.rows, r.length = img.width) :
    (img.Set x y clr).rows.length = (img.Set x y clr).height ∧
      ∀ r ∈ (img.Set x y clr).rows, r.length = (img.Set x y clr).width := by
  refine ⟨by rw [Set_rows_length, Set_height]; exact hwf.1, ?_⟩
  rw [Set_width]
  unfold Image.Set
  split
  · intro r hr
    simp only at hr
    rcases List.mem_or_eq_of_mem_set hr with h | h
    · exact hwf.2 r h
    · rw [h, List.length_set, List.getD_eq_getElem?_getD]
      rename_i hin
      have hy : y.toNat < img.rows.length := by omega
      rw [List.getElem?_eq_getElem hy]
      exact hwf.2 _ (List.getElem_mem hy)
  · exact hwf.2

/-- Reading a cell after `Set` at a point inside the bounds: the new colour at that
point, the old content elsewhere. -/
theorem At_Set (img : Image)
    (hwf : img.rows.length = img.height ∧ ∀ r ∈ img.rows, r.length = img.width)
    (x y : Nat) (hx : x < img.width) (hy : y < img.height) (clr : Color) (x2 y2 : Nat) :
    (img.Set (x : Int) (y : Int) clr).At x2 y2 =
      if x2 = x ∧ y2 = y then some (rgbaModel clr) else img.At x2 y2 := by
  have hyl : y < img.rows.length := by omega
  have hrow : (img.rows.getD y []).length = img.width := by
    rw [List.getD_eq_getElem?_getD, List.getElem?_eq_getElem hyl]
    exact hwf.2 _ (List.getElem_mem hyl)
  unfold Image.Set Image.At
  rw [if_pos ⟨by omega, by omega, by omega, by omega⟩]
  simp only [Int.toNat_ofNat]
  rw [List.getElem?_set]
  by_cases hy2 : y = y2
  · subst hy2
    rw [if_pos rfl, if_pos hyl]
    simp only
    rw [List.getElem?_set]
    by_cases hx2 : x = x2
    · subst hx2
      rw [if_pos rfl, if_pos (by omega)]
      simp
    · rw [if_neg hx2, if_neg (fun c => hx2 c.1.symm), List.getElem?_eq_getElem hyl]
      simp only
      rw [List.getD_eq_getElem?_getD, List.getElem?_eq_getElem hyl]
      rfl
  · rw [if_neg hy2, if_neg (fun c => hy2 c.2.symm)]

theorem At_eq_bind (img : Image) (x y : Nat) :
    img.At x y = (img.rows[y]?.bind fun r => r[x]?) := by
  unfold Image.At
  cases img.rows[y]? <;> rfl

theorem NewRGBA_wf (w h : Nat) :
    (NewRGBA w h).rows.length = (NewRGBA w h).height ∧
      ∀ r ∈ (NewRGBA w h).rows, r.length = (NewRGBA w h).width := by
  simp only [NewRGBA, List.length_replicate, true_and]
  intro r hr
  rw [(List.mem_replicate.mp hr).2, List.length_replicate]

theorem At_NewRGBA (w h x y : Nat) (hx : x < w) (hy : y < h) :
    (NewRGBA w h).At x y = some unset := by
  simp [Image.At, NewRGBA, List.getElem?_replicate, hx, hy]

theorem cell_index (w x y idx : Nat) (hx : x < w) :
    (x = idx % w ∧ y = idx / w) ↔ y * w + x = idx := by
  have hw : 0 < w := by omega
  constructor
  · rintro ⟨h1, h2⟩
    rw [h1, h2, Nat.mul_comm]
    exact Nat.div_add_mod idx w
  · intro h
    subst h
    constructor
    · rw [Nat.add_comm, Nat.add_mul_mod_self_right, Nat.mod_eq_of_lt hx]
    · rw [Nat.add_comm, Nat.add_mul_div_right _ _ hw, Nat.div_eq_of_lt hx, Nat.zero_add]

/-- The drawing loop without `flip`, started at index `idx`: a cell whose row-major
number lies among the indices still to draw holds that pixel, every other cell is
as before. -/
theorem drawLoop_At (w h : Nat) :
    ∀ (rest : List Color) (idx : Nat) (img : Image),
      (img.rows.length = img.height ∧ ∀ r ∈ img.rows, r.length = img.width) →
      img.width = w → img.height = h →
      (∀ k, k < rest.length → (idx + k) / w < h) →
      ∀ x y, x < w → y < h →
        (drawLoop w h false idx rest img).At x y =
          if idx ≤ y * w + x ∧ y * w + x < idx + rest.length then
            (rest[y * w + x - idx]?).map rgbaModel
          else img.At x y := by
  intro rest
  induction rest with
  | nil =>
    intro idx img _ _ _ _ x y _ _
    rw [if_neg (by simp)]
    rfl
  | cons clr rest ih =>
    intro idx img hwf hiw hih hfit x y hx hy
    have hw : 0 < w := by omega
    have h0 : idx / w < h := by
      have := hfit 0 (by simp)
      simpa using this
    have hm : idx % w < w := Nat.mod_lt _ hw
    have hstep := ih (idx + 1) (img.Set ((idx % w : Nat) : Int) ((idx / w : Nat) : Int) clr)
      (Set_wf img _ _ clr hwf) (by rw [Set_width, hiw]) (by rw [Set_height, hih])
      (by
        intro k hk
        have := hfit (k + 1) (by simpa using hk)
        rw [show idx + 1 + k = idx + (k + 1) by omega]
        exact this) x y hx hy
    have hset := At_Set img hwf (idx % w) (idx / w) (by omega) (by omega) clr x y
    have hcell := cell_index w x y idx hx
    simp only [drawLoop, Bool.false_eq_true, if_false]
    rw [if_neg (by omega), hstep, hset]
    simp only [List.length_cons]
    by_cases hk : y * w + x = idx
    · rw [if_neg (by omega), if_pos (hcell.mpr hk), if_pos (by omega), hk, Nat.sub_self]
      simp
    · rw [if_neg (fun c => hk (hcell.mp c))]
      by_cases hin : idx + 1 ≤ y * w + x ∧ y * w + x < idx + 1 + rest.length
      · rw [if_pos hin, if_pos (by omega)]
        have e : y * w + x - idx = (y * w + x - (idx + 1)) + 1 := by omega
        rw [e, List.getElem?_cons_succ]
      · rw [if_neg hin, if_neg (by omega)]

/-- A list of rows of equal length whose cells are the entries of `l` in row-major
order is `l` cut into rows. -/
theorem flatten_of_cells (w : Nat) :
    ∀ (rows : List (List RGBA)) (l : List RGBA), (∀ r ∈ rows, r.length = w) →
      l.length = rows.length * w →
      (∀ x y, x < w → y < rows.length → (rows[y]?.bind fun r => r[x]?) = l[y * w + x]?) →
      rows.flatten = l := by
  intro rows
  induction rows with
  | nil =>
    intro l _ hl _
    simp only [List.length_nil, Nat.zero_mul] at hl
    rw [List.flatten_nil, List.eq_nil_of_length_eq_zero hl]
  | cons r rows ih =>
    intro l hrows hl hcells
    have hr : r.length = w := hrows r (List.mem_cons_self _ _)
    have hlw : w ≤ l.length := by
      rw [hl, List.length_cons, Nat.add_mul, Nat.one_mul]
      omega
    have hfirst : r = l.take w := by
      apply List.ext_getElem?
      intro x
      by_cases hx : x < w
      · have := hcells x 0 hx (by simp)
        simp only [List.getElem?_cons_zero, Option.some_bind, Nat.zero_mul, Nat.zero_add] at this
        rw [this, List.getElem?_take_of_lt hx]
      · rw [List.getElem?_eq_none (by omega), List.getElem?_eq_none (by
          rw [List.length_take]; omega)]
    have hrest : rows.flatten = l.drop w := by
      apply ih
      · intro r2 h2
        exact hrows r2 (List.mem_cons_of_mem _ h2)
      · rw [List.length_drop, hl, List.length_cons, Nat.add_mul, Nat.one_mul]
        omega
      · intro x y hx hy
        have := hcells x (y + 1) hx (by simpa using hy)
        rw [List.getElem?_cons_succ] at this
        rw [this, List.getElem?_drop]
        congr 1
        rw [Nat.add_mul, Nat.one_mul]
        omega
    rw [List.flatten_cons, hfirst, hrest, List.take_append_drop]

/-- C15. For every pixel sequence of length `n >= 1`, with the computed width `w` and
height `h`, the canvas drawn without `flip` has `h` rows of `w` cells; the cell
`(x, y)` holds pixel number `y*w + x` when that number is below `n` and the zero
colour otherwise; in row-major order the canvas is the pixel sequence followed by
exactly `w*h - n` unset cells, and that number is less than `w`. -/
theorem canvas_layout (pixelData : List Color) (h : 1 ≤ pixelData.length) :
    ∃ ht, height pixelData.length = Except.ok ht ∧
      (render pixelData (width pixelData.length) ht false).rows.length = ht ∧
      (∀ r ∈ (render pixelData (width pixelData.length) ht false).rows,
        r.length = width pixelData.length) ∧
      (∀ x y, x < width pixelData.length → y < ht →
        (y * width pixelData.length + x < pixelData.length →
          (render pixelData (width pixelData.length) ht false).At x y =
            (pixelData[y * width pixelData.length + x]?).map rgbaModel) ∧
        (pixelData.length ≤ y * width pixelData.length + x →
          (render pixelData (width pixelData.length) ht false).At x y = some unset)) ∧
      (render pixelData (width pixelData.length) ht false).rows.flatten =
        pixelData.map rgbaModel ++
          List.replicate (width pixelData.length * ht - pixelData.length) unset ∧
      width pixelData.length * ht - pixelData.length < width pixelData.length := by
  obtain ⟨ht, hrun, _, hroom, htight, hpos⟩ := height_spec pixelData.length h
  have hw := width_pos pixelData.length h
  generalize hwd : width pixelData.length = w at *
  have hshape := drawLoop_shape w ht false pixelData 0 (NewRGBA w ht)
  have hfit : ∀ k, k < pixelData.length → (0 + k) / w < ht := by
    intro k hk
    rw [Nat.zero_add]
    apply Nat.div_lt_of_lt_mul
    omega
  have hcell : ∀ x y, x < w → y < ht →
      (render pixelData w ht false).At x y =
        if y * w + x < pixelData.length then (pixelData[y * w + x]?).map rgbaModel
        else some unset := by
    intro x y hx hy
    unfold render
    rw [drawLoop_At w ht pixelData 0 (NewRGBA w ht) (NewRGBA_wf w ht) rfl rfl hfit x y hx hy,
      At_NewRGBA w ht x y hx hy]
    simp only [Nat.zero_le, true_and, Nat.zero_add, Nat.sub_zero]
  have hwf : (render pixelData w ht false).rows.length = ht ∧
      ∀ r ∈ (render pixelData w ht false).rows, r.length = w := by
    unfold render
    have hgen : ∀ (rest : List Color) (idx : Nat) (img : Image),
        (img.rows.length = img.height ∧ ∀ r ∈ img.rows, r.length = img.width) →
        ∀ r ∈ (drawLoop w ht false idx rest img).rows, r.length = img.width := by
      intro rest
      induction rest with
      | nil =>
        intro idx img hi
        exact hi.2
      | cons clr rest ih =>
        intro idx img hi
        simp only [drawLoop, Bool.false_eq_true, if_false]
        split
        · exact hi.2
        · have := ih (idx + 1) _ (Set_wf img ((idx % w : Nat) : Int) ((idx / w : Nat) : Int) clr hi)
          rw [Set_width] at this
          exact this
    refine ⟨by rw [hshape.2.2]; simp [NewRGBA], ?_⟩
    exact hgen pixelData 0 (NewRGBA w ht) (NewRGBA_wf w ht)
  have hmul : w * (ht - 1) = w * ht - w := by
    rw [Nat.mul_sub, Nat.mul_one]
  have hwle : w ≤ w * ht := Nat.le_mul_of_pos_right _ hpos
  refine ⟨ht, hrun, hwf.1, hwf.2, ?_, ?_, by omega⟩
  · intro x y hx hy
    constructor
    · intro hlt
      rw [hcell x y hx hy, if_pos hlt]
    · intro hge
      rw [hcell x y hx hy, if_neg (by omega)]
  · apply flatten_of_cells w _ _ hwf.2
    · rw [List.length_append, List.length_map, List.length_replicate, hwf.1, Nat.mul_comm ht w]
      omega
    · intro x y hx hy
      rw [hwf.1] at hy
      rw [← At_eq_bind, hcell x y hx hy]
      by_cases hlt : y * w + x < pixelData.length
      · rw [if_pos hlt, List.getElem?_append_left (by simpa using hlt), List.getElem?_map]
      · rw [if_neg hlt, List.getElem?_append_right (by simpa using hlt)]
        rw [List.getElem?_replicate, if_pos]
        rw [List.length_map]
        have : y * w + x < ht * w := by
          calc y * w + x < y * w + w := by omega
            _ = (y + 1) * w := by ring
            _ ≤ ht * w := Nat.mul_le_mul_right w hy
        rw [Nat.mul_comm w ht]
        omega

/-- Witness of C15: five pixels on a canvas two wide and three high. -/
theorem canvas_layout_witness :
    1 ≤ (List.replicate 5 color.White).length ∧
    ∃ ht, height (List.replicate 5 color.White).length = Except.ok ht ∧
      (render (List.replicate 5 color.White) (width (List.replicate 5 color.White).length)
        ht false).rows.length = ht ∧
      (∀ r ∈ (render (List.replicate 5 color.White) (width (List.replicate 5 color.White).length)
          ht false).rows, r.length = width (List.replicate 5 color.White).length) ∧
      (∀ x y, x < width (List.replicate 5 color.White).length → y < ht →
        (y * width (List.replicate 5 color.White).length + x <
            (List.replicate 5 color.White).length →
          (render (List.replicate 5 color.White) (width (List.replicate 5 color.White).length)
              ht false).At x y =
            ((List.replicate 5 color.White)[y * width (List.replicate 5 color.White).length
              + x]?).map rgbaModel) ∧
        ((List.replicate 5 color.White).length ≤
            y * width (List.replicate 5 color.White).length + x →
          (render (List.replicate 5 color.White) (width (List.replicate 5 color.White).length)
              ht false).At x y = some unset)) ∧
      (render (List.replicate 5 color.White) (width (List.replicate 5 color.White).length)
          ht false).rows.flatten =
        (List.replicate 5 color.White).map rgbaModel ++
          List.replicate (width (List.replicate 5 color.White).length * ht -
            (List.replicate 5 color.White).length) unset ∧
      width (List.replicate 5 color.White).length * ht - (List.replicate 5 color.White).length
        < width (List.replicate 5 color.White).length :=
  ⟨by decide, canvas_layout (List.replicate 5 color.White) (by decide)⟩

/-! ## Every pixel has its own cell -/

/-- While every index still to draw falls on a row of the image, the drawing loop is
the loop without its `break`: one `Set` per pixel. -/
theorem drawLoop_no_break (w h : Nat) (flip : Bool) :
    ∀ (rest : List Color) (idx : Nat) (img : Image),
      (∀ k, k < rest.length → (idx + k) / w < h) →
      drawLoop w h flip idx rest img =
        (rest.enumFrom idx).foldl (fun im p =>
          im.Set ((p.1 % w : Nat) : Int)
            (if flip = true then (h : Int) - ((p.1 / w : Nat) : Int) - 1
              else ((p.1 / w : Nat) : Int)) p.2) img := by
  intro rest
  induction rest with
  | nil =>
    intro idx img _
    rfl
  | cons clr rest ih =>
    intro idx img hfit
    have h0 : idx / w < h := by
      have := hfit 0 (by simp)
      simpa using this
    have hstep := ih (idx + 1)
      (img.Set ((idx % w : Nat) : Int)
        (if flip = true then (h : Int) - ((idx / w : Nat) : Int) - 1
          else ((idx / w : Nat) : Int)) clr)
      (by
        intro k hk
        have := hfit (k + 1) (by simpa using hk)
        rw [show idx + 1 + k = idx + (k + 1) by omega]
        exact this)
    simp only [drawLoop, List.enumFrom_cons, List.foldl_cons]
    rw [← hstep]
    have hguard : ¬ ((if flip = true then (h : Int) - ((idx / w : Nat) : Int) - 1
        else ((idx / w : Nat) : Int)) ≥ (h : Int)) := by
      generalize idx / w = y at h0
      cases flip
      · simp only [Bool.false_eq_true, if_false]
        omega
      · simp only [if_true]
        omega
    rw [if_neg hguard]

/-- C16. For every pixel sequence of length `n >= 1` and both values of `flip`, every
pixel index `k < n` has a column below the width and a row below the height, also
after the inversion `height - row - 1`, so the guard `y >= height` is false at every
pixel and the loop is the loop without the `break`; two pixels with the same column
and row are the same pixel, and in the final canvas the cell of pixel `k` holds the
colour of pixel `k`. -/
theorem pixel_cells (pixelData : List Color) (h : 1 ≤ pixelData.length) :
    ∃ ht, height pixelData.length = Except.ok ht ∧
      (∀ k, k < pixelData.length →
        k % width pixelData.length < width pixelData.length ∧
        k / width pixelData.length < ht ∧
        ¬ (((k / width pixelData.length : Nat) : Int) ≥ (ht : Int)) ∧
        0 ≤ (ht : Int) - ((k / width pixelData.length : Nat) : Int) - 1 ∧
        ¬ ((ht : Int) - ((k / width pixelData.length : Nat) : Int) - 1 ≥ (ht : Int))) ∧
      (∀ flip : Bool, render pixelData (width pixelData.length) ht flip =
        (pixelData.enumFrom 0).foldl (fun im p =>
          im.Set ((p.1 % width pixelData.length : Nat) : Int)
            (if flip = true then (ht : Int) - ((p.1 / width pixelData.length : Nat) : Int) - 1
              else ((p.1 / width pixelData.length : Nat) : Int)) p.2)
          (NewRGBA (width pixelData.length) ht)) ∧
      (∀ k k2, k < pixelData.length → k2 < pixelData.length →
        k % width pixelData.length = k2 % width pixelData.length →
        k / width pixelData.length = k2 / width pixelData.length → k = k2) ∧
      (∀ k (hk : k < pixelData.length),
        (render pixelData (width pixelData.length) ht false).At
            (k % width pixelData.length) (k / width pixelData.length) =
          some (rgbaModel pixelData[k]) ∧
        (render pixelData (width pixelData.length) ht true).At
            (k % width pixelData.length) (ht - 1 - k / width pixelData.length) =
          some (rgbaModel pixelData[k])) := by
  obtain ⟨ht, hrun, _, hroom, _, hpos⟩ := height_spec pixelData.length h
  have hw := width_pos pixelData.length h
  generalize hwd : width pixelData.length = w at *
  have hrow : ∀ k, k < pixelData.length → k / w < ht := by
    intro k hk
    apply Nat.div_lt_of_lt_mul
    omega
  have hfit : ∀ k, k < pixelData.length → (0 + k) / w < ht := by
    intro k hk
    rw [Nat.zero_add]
    exact hrow k hk
  have hplain : ∀ k (hk : k < pixelData.length),
      (render pixelData w ht false).At (k % w) (k / w) = some (rgbaModel pixelData[k]) := by
    intro k hk
    unfold render
    rw [drawLoop_At w ht pixelData 0 (NewRGBA w ht) (NewRGBA_wf w ht) rfl rfl hfit
      (k % w) (k / w) (Nat.mod_lt _ hw) (hrow k hk)]
    have e : k / w * w + k % w = k := by
      rw [Nat.mul_comm]
      exact Nat.div_add_mod k w
    rw [e, if_pos ⟨Nat.zero_le _, by omega⟩, Nat.sub_zero, List.getElem?_eq_getElem hk]
    rfl
  have hflip : render pixelData w ht true = (render pixelData w ht false).reverseRows := by
    unfold render
    rw [← drawLoop_flip w ht pixelData 0 (NewRGBA w ht) rfl (by simp [NewRGBA]) hfit,
      reverseRows_NewRGBA]
  have hlen : (render pixelData w ht false).rows.length = ht := by
    unfold render
    rw [(drawLoop_shape _ _ _ _ _ _).2.2]
    simp [NewRGBA]
  refine ⟨ht, hrun, ?_, ?_, ?_, ?_⟩
  · intro k hk
    have hr := hrow k hk
    refine ⟨Nat.mod_lt _ hw, hr, ?_⟩
    generalize k / w = y at hr ⊢
    omega
  · intro flip
    exact drawLoop_no_break w ht flip pixelData 0 (NewRGBA w ht) hfit
  · intro k k2 _ _ hm hd
    rw [← Nat.div_add_mod k w, ← Nat.div_add_mod k2 w, hm, hd]
  · intro k hk
    refine ⟨hplain k hk, ?_⟩
    have hr := hrow k hk
    have hp := hplain k hk
    generalize k / w = y at hr hp ⊢
    rw [hflip, At_reverseRows _ _ _ (by rw [hlen]; omega), hlen]
    have e : ht - 1 - (ht - 1 - y) = y := by omega
    rw [e]
    exact hp

/-- Witness of C16: five pixels on a canvas two wide and three high. -/
theorem pixel_cells_witness :
    1 ≤ (List.replicate 5 color.White).length ∧
    ∃ ht, height (List.replicate 5 color.White).length = Except.ok ht ∧
      (∀ k, k < (List.replicate 5 color.White).length →
        k % width (List.replicate 5 color.White).length <
          width (List.replicate 5 color.White).length ∧
        k / width (List.replicate 5 color.White).length < ht ∧
        ¬ (((k / width (List.replicate 5 color.White).length : Nat) : Int) ≥ (ht : Int)) ∧
        0 ≤ (ht : Int) - ((k / width (List.replicate 5 color.White).length : Nat) : Int) - 1 ∧
        ¬ ((ht : Int) - ((k / width (List.replicate 5 color.White).length : Nat) : Int) - 1
          ≥ (ht : Int))) ∧
      (∀ flip : Bool, render (List.replicate 5 color.White)
          (width (List.replicate 5 color.White).length) ht flip =
        ((List.replicate 5 color.White).enumFrom 0).foldl (fun im p =>
          im.Set ((p.1 % width (List.replicate 5 color.White).length : Nat) : Int)
            (if flip = true then
              (ht : Int) - ((p.1 / width (List.replicate 5 color.White).length : Nat) : Int) - 1
              else ((p.1 / width (List.replicate 5 color.White).length : Nat) : Int)) p.2)
          (NewRGBA (width (List.replicate 5 color.White).length) ht)) ∧
      (∀ k k2, k < (List.replicate 5 color.White).length →
        k2 < (List.replicate 5 color.White).length →
        k % width (List.replicate 5 color.White).length =
          k2 % width (List.replicate 5 color.White).length →
        k / width (List.replicate 5 color.White).length =
          k2 / width (List.replicate 5 color.White).length → k = k2) ∧
      (∀ k (hk : k < (List.replicate 5 color.White).length),
        (render (List.replicate 5 color.White) (width (List.replicate 5 color.White).length)
            ht false).At
            (k % width (List.replicate 5 color.White).length)
            (k / width (List.replicate 5 color.White).length) =
          some (rgbaModel (List.replicate 5 color.White)[k]) ∧
        (render (List.replicate 5 color.White) (width (List.replicate 5 color.White).length)
            ht true).At
            (k % width (List.replicate 5 color.White).length)
            (ht - 1 - k / width (List.replicate 5 color.White).length) =
          some (rgbaModel (List.replicate 5 color.White)[k])) :=
  ⟨by decide, pixel_cells (List.replicate 5 color.White) (by decide)⟩

/-- C17. For every pixel sequence of length `n >= 1` the canvas is near-square: the
height is at least the width and at most the width plus 2. -/
theorem near_square (pixelData : List Color) (h : 1 ≤ pixelData.length) :
    ∃ ht, height pixelData.length = Except.ok ht ∧
      width pixelData.length ≤ ht ∧ ht ≤ width pixelData.length + 2 := by
  obtain ⟨ht, hrun, hval, _, _, _⟩ := height_spec pixelData.length h
  have hw := width_pos pixelData.length h
  have h1 : width pixelData.length * width pixelData.length ≤ pixelData.length := Nat.sqrt_le _
  have h2 : pixelData.length < (width pixelData.length + 1) * (width pixelData.length + 1) :=
    Nat.lt_succ_sqrt _
  generalize width pixelData.length = w at *
  generalize pixelData.length = n at *
  have hdm := Nat.div_add_mod n w
  have hmod := Nat.mod_lt n hw
  have hlo : w ≤ n / w := (Nat.le_div_iff_mul_le hw).mpr h1
  have hhi : n / w < w + 3 := by
    rw [Nat.div_lt_iff_lt_mul hw]
    calc n < (w + 1) * (w + 1) := h2
      _ ≤ (w + 3) * w := by nlinarith
  refine ⟨ht, hrun, ?_, ?_⟩
  · rw [hval]
    omega
  · rw [hval]
    by_cases hq : n / w = w + 2
    · rw [hq] at hdm
      have e : (w + 1) * (w + 1) = w * (w + 2) + 1 := by ring
      have hr : n % w = 0 := by omega
      rw [hq, hr]
      simp
    · split <;> omega

/-- Witness of C17: three pixels give a canvas one wide and three high. -/
theorem near_square_witness :
    1 ≤ (List.replicate 3 color.White).length ∧
    ∃ ht, height (List.replicate 3 color.White).length = Except.ok ht ∧
      width (List.replicate 3 color.White).length ≤ ht ∧
      ht ≤ width (List.replicate 3 color.White).length + 2 :=
  ⟨by decide, near_square (List.replicate 3 color.White) (by decide)⟩

/-! ## Runs without ties -/

/-- When the distinct blocks have pairwise different numbers of occurrences, the
ranked list is strictly decreasing in the count. -/
theorem ranked_strict (s : Schedule) (hs : s.Valid) (bs : List Block)
    (hties : ∀ a ∈ bs, ∀ b ∈ bs, a ≠ b → bs.count a ≠ bs.count b) :
    (blockFrequencies s bs).Sorted (fun a b => a.Count > b.Count) := by
  obtain ⟨hnd, hkeys, hcnt, _⟩ := entries_spec bs _ (blockFrequencies_perm s hs bs)
  have hne : (blockFrequencies s bs).Pairwise (fun a b => a.Count ≠ b.Count) := by
    have hk : (blockFrequencies s bs).Pairwise (fun a b => a.BlockKey ≠ b.BlockKey) :=
      List.pairwise_map.mp hnd
    refine List.Pairwise.imp_of_mem ?_ hk
    intro a b ha hb hab
    rw [hcnt a ha, hcnt b hb]
    apply hties _ ((hkeys _).mp (List.mem_map.mpr ⟨a, ha, rfl⟩)) _
      ((hkeys _).mp (List.mem_map.mpr ⟨b, hb, rfl⟩)) hab
  have hge := hs.sort_sorted (frequencyEntries s bs)
  have hboth := hge.and hne
  refine List.Pairwise.imp ?_ hboth
  intro a b hab
  have h1 : b.Count ≤ a.Count := by simpa [less] using hab.1
  have h2 := hab.2
  omega

theorem ranked_unique (s1 s2 : Schedule) (h1 : s1.Valid) (h2 : s2.Valid) (bs : List Block)
    (hties : ∀ a ∈ bs, ∀ b ∈ bs, a ≠ b → bs.count a ≠ bs.count b) :
    blockFrequencies s1 bs = blockFrequencies s2 bs := by
  haveI : IsAntisymm BlockFrequencifier (fun a b => a.Count > b.Count) :=
    ⟨fun a b hab hba => absurd hab (by omega)⟩
  exact List.eq_of_perm_of_sorted
    ((blockFrequencies_perm s1 h1 bs).trans (blockFrequencies_perm s2 h2 bs).symm)
    (ranked_strict s1 h1 bs hties) (ranked_strict s2 h2 bs hties)

/-- A block that occurs strictly more often than every other block has rank 0. -/
theorem most_frequent_first (s : Schedule) (hs : s.Valid) (bs : List Block) (b : Block)
    (hb : b ∈ bs) (hmax : ∀ b2 ∈ bs, b2 ≠ b → bs.count b2 < bs.count b) :
    ∃ h0 : 0 < (blockFrequencies s bs).length, (blockFrequencies s bs)[0].BlockKey = b := by
  obtain ⟨_, hkeys, hcnt, _⟩ := entries_spec bs _ (blockFrequencies_perm s hs bs)
  obtain ⟨e, he, hek⟩ := List.mem_map.mp ((hkeys b).mpr hb)
  obtain ⟨j, hj, hje⟩ := List.getElem_of_mem he
  have h0 : 0 < (blockFrequencies s bs).length := by omega
  refine ⟨h0, ?_⟩
  by_contra hne
  have hmem0 : (blockFrequencies s bs)[0] ∈ blockFrequencies s bs := List.getElem_mem h0
  have hin : (blockFrequencies s bs)[0].BlockKey ∈ bs :=
    (hkeys _).mp (List.mem_map.mpr ⟨_, hmem0, rfl⟩)
  have hlt := hmax _ hin hne
  have hj0 : 0 < j := by
    rcases Nat.eq_zero_or_pos j with hz | hz
    · subst hz
      rw [hje] at hne
      exact absurd hek hne
    · exact hz
  have hsorted := List.pairwise_iff_getElem.mp (hs.sort_sorted (frequencyEntries s bs))
    0 j h0 hj hj0
  have hge : (blockFrequencies s bs)[j].Count ≤ (blockFrequencies s bs)[0].Count := by
    simpa [less] using hsorted
  rw [hcnt _ hmem0, hcnt _ (List.getElem_mem hj), hje, hek] at hge
  omega

/-- C19. For every block sequence whose distinct blocks have pairwise different
numbers of occurrences, two runs that differ in the iteration order of the map and
in the outcome of the sort have the same ranked list, the same colour map, the same
pixel sequence and the same canvas. And for any block sequence, a block that occurs
strictly more often than every other block is mapped to white when
`colorsNeeded >= 2` and the palette is built, and all its pixels in a pixel sequence
built for a `pixWidth >= 1` are drawn (255,255,255,255). -/
theorem no_tie_determinism (s1 s2 : Schedule) (h1 : s1.Valid) (h2 : s2.Valid) :
    (∀ (bytes : List Byte) (bs : List Block), blocks bytes = Except.ok bs →
      (∀ a ∈ bs, ∀ b ∈ bs, a ≠ b → bs.count a ≠ bs.count b) →
      blockFrequencies s1 bs = blockFrequencies s2 bs ∧
      ∀ (colorsNeeded : Int) (flip : Bool) (pixWidth : Int),
        (∀ pal, colorMap colorsNeeded pal (blockFrequencies s1 bs) =
          colorMap colorsNeeded pal (blockFrequencies s2 bs)) ∧
        pixels s1 bytes colorsNeeded pixWidth = pixels s2 bytes colorsNeeded pixWidth ∧
        processImage s1 bytes colorsNeeded flip pixWidth =
          processImage s2 bytes colorsNeeded flip pixWidth) ∧
    (∀ (bs : List Block) (b : Block), b ∈ bs →
      (∀ b2 ∈ bs, b2 ≠ b → bs.count b2 < bs.count b) →
      ∀ (colorsNeeded : Int) (pal : List Color), 2 ≤ colorsNeeded →
        palette colorsNeeded = Except.ok pal →
        ∃ cm, colorMap colorsNeeded pal (blockFrequencies s1 bs) = Except.ok cm ∧
          mapGet b cm = some color.White ∧ lookupColor cm b = color.White ∧
          ∀ (pixWidth : Int) (px : List Color), 1 ≤ pixWidth →
            pixelData bs cm pixWidth = Except.ok px →
            ∀ k, k < bs.length * (16 / pixWidth.toNat) →
              bs[k / (16 / pixWidth.toNat)]? = some b →
              (px[k]?).map rgbaModel = some ⟨255, 255, 255, 255⟩) := by
  constructor
  · intro bytes bs hbs hties
    have hr := ranked_unique s1 s2 h1 h2 bs hties
    refine ⟨hr, ?_⟩
    intro colorsNeeded flip pixWidth
    have hpx : pixels s1 bytes colorsNeeded pixWidth = pixels s2 bytes colorsNeeded pixWidth := by
      unfold pixels
      rw [hbs]
      simp only [hr]
    refine ⟨fun pal => by rw [hr], hpx, ?_⟩
    unfold processImage
    rw [hpx]
  · intro bs b hb hmax colorsNeeded pal hc hpal
    have hpe := palette_built colorsNeeded pal hpal
    subst hpe
    obtain ⟨h0, hfirst⟩ := most_frequent_first s1 h1 bs b hb hmax
    obtain ⟨hnd, _, _, _⟩ := entries_spec bs _ (blockFrequencies_perm s1 h1 bs)
    obtain ⟨cm, hrun, hget⟩ := colorMap_paletteEntries (blockFrequencies s1 bs) colorsNeeded hnd hc
    have hwhite : mapGet b cm = some color.White := by
      have := hget 0 h0
      rw [hfirst, if_pos rfl] at this
      exact this
    have hlook : lookupColor cm b = color.White := by
      unfold lookupColor
      rw [hwhite]
    refine ⟨cm, hrun, hwhite, hlook, ?_⟩
    intro pixWidth px hp hpx
    have hform := pixelData_ok bs cm pixWidth px hpx
    rw [tdiv_blockSize pixWidth hp] at hform
    intro k hk hkb
    rw [hform, getElem?_expand (16 / pixWidth.toNat) (lookupColor cm) bs k hk, hkb]
    simp only [Option.map_some', hlook]
    rfl

set_option maxRecDepth 100000 in
/-- Witness of C19: the input of two blocks of zero bytes and one block of one bytes
has no tie; the first-seen and the last-seen schedule give the same ranked list and
the same canvas, and with the palette of 254 colours the block of zero bytes is white
and the first pixel of the sequence built for `pixWidth = 16` is drawn white. -/
theorem no_tie_determinism_witness :
    (firstSeen.Valid ∧ lastSeen.Valid) ∧
    blockFrequencies firstSeen [List.replicate 16 0, List.replicate 16 0, List.replicate 16 1] =
      blockFrequencies lastSeen [List.replicate 16 0, List.replicate 16 0, List.replicate 16 1] ∧
    processImage firstSeen (List.replicate 32 0 ++ List.replicate 16 1) 254 true 16 =
      processImage lastSeen (List.replicate 32 0 ++ List.replicate 16 1) 254 true 16 ∧
    palette 254 = Except.ok (paletteEntries 254) ∧
    ∃ cm px, colorMap 254 (paletteEntries 254) (blockFrequencies firstSeen
        [List.replicate 16 0, List.replicate 16 0, List.replicate 16 1]) = Except.ok cm ∧
      mapGet (List.replicate 16 0) cm = some color.White ∧
      pixelData [List.replicate 16 0, List.replicate 16 0, List.replicate 16 1] cm 16 =
        Except.ok px ∧
      (px[0]?).map rgbaModel = some ⟨255, 255, 255, 255⟩ := by
  have hT := no_tie_determinism firstSeen lastSeen firstSeen_valid lastSeen_valid
  have hA := hT.1 (List.replicate 32 0 ++ List.replicate 16 1)
    [List.replicate 16 0, List.replicate 16 0, List.replicate 16 1] (by decide) (by decide)
  have hpal : palette 254 = Except.ok (paletteEntries 254) := by decide
  obtain ⟨cm, hc, hw, _, hpix⟩ := hT.2
    [List.replicate 16 0, List.replicate 16 0, List.replicate 16 1] (List.replicate 16 0)
    (by decide) (by decide) 254 (paletteEntries 254) (by decide) hpal
  rcases pixelData_cases [List.replicate 16 0, List.replicate 16 0, List.replicate 16 1] cm 16
    (by decide) with ⟨_, hpx⟩ | ⟨hcap, _⟩
  · exact ⟨⟨firstSeen_valid, lastSeen_valid⟩, hA.1, (hA.2 254 true 16).2.2, hpal, cm, _, hc, hw,
      hpx, hpix 16 _ (by decide) hpx 0 (by decide) (by decide)⟩
  · exact absurd hcap (by decide)

/-! ## The two entry points -/

theorem descrypt_blocksLoop (bytes : List Byte) (starts : List Nat) :
    descrypt.blocksLoop bytes starts = blocksLoop bytes starts := by
  induction starts with
  | nil => rfl
  | cons i rest ih =>
    simp only [descrypt.blocksLoop, blocksLoop, ih]
    rfl

theorem descrypt_blocks (bytes : List Byte) : descrypt.blocks bytes = blocks bytes := by
  unfold descrypt.blocks blocks
  rw [descrypt_blocksLoop]
  rfl

theorem descrypt_palette : descrypt.palette = palette 254 := by
  unfold descrypt.palette palette paletteEntries generated
  have h : descrypt.colors_needed = 254 := rfl
  rw [h]

theorem descrypt_colorMapLoop (c : Int) (pal : List Color) :
    ∀ (ranked : List BlockFrequencifier) (i : Nat) (cm : List (Block × Color)),
      descrypt.colorMapLoop c pal i ranked cm = colorMapLoop c pal i ranked cm := by
  intro ranked
  induction ranked with
  | nil =>
    intro i cm
    rfl
  | cons bf rest ih =>
    intro i cm
    have e : descrypt.rankColor c pal i = rankColor c pal i := rfl
    rw [descrypt.colorMapLoop, colorMapLoop, e]
    cases rankColor c pal i with
    | error e => rfl
    | ok clr => exact ih (i + 1) _

theorem descrypt_pixelLoop (cm : List (Block × Color)) (bs : List Block) :
    descrypt.pixelLoop cm bs = pixelLoop cm 16 bs := by
  induction bs with
  | nil => rfl
  | cons b bs ih =>
    simp only [descrypt.pixelLoop, pixelLoop, ih]
    rfl

theorem descrypt_pixelData (bs : List Block) (cm : List (Block × Color)) :
    descrypt.pixelData bs cm = pixelData bs cm 16 := by
  unfold descrypt.pixelData pixelData
  have h : descrypt.pix_width = 16 := rfl
  rw [descrypt_pixelLoop, h]

theorem descrypt_drawLoop (w h : Nat) :
    ∀ (rest : List Color) (idx : Nat) (img : Image),
      descrypt.drawLoop w h idx rest img = drawLoop w h true idx rest img := by
  intro rest
  induction rest with
  | nil =>
    intro idx img
    rfl
  | cons clr rest ih =>
    intro idx img
    simp only [descrypt.drawLoop, drawLoop, descrypt.flip, ih]

/-- C20. For every input byte buffer and every schedule, the pipeline of `main` in
`aes-ecb-descrypt.go` and `processImage` of `aes-ecb-cmd.go` with the defaults
`colorsNeeded = 254`, `flip = true`, `pixWidth = 16` give the same result: the same
canvas, with the same width, height and rows, or the same panic. -/
theorem entry_points_agree (s : Schedule) (bytes : List Byte) :
    descrypt.main s bytes = processImage s bytes 254 true 16 ∧
      ∀ img, descrypt.main s bytes = Except.ok img →
        ∃ img2, processImage s bytes 254 true 16 = Except.ok img2 ∧
          img2.width = img.width ∧ img2.height = img.height ∧ img2.rows = img.rows := by
  have hmain : descrypt.main s bytes = processImage s bytes 254 true 16 := by
    unfold descrypt.main processImage pixels
    rw [descrypt_blocks, descrypt_palette]
    cases blocks bytes with
    | error e => rfl
    | ok bs =>
      simp only
      cases palette 254 with
      | error e => rfl
      | ok pal =>
        simp only
        have hr : descrypt.block_frequencies s bs = blockFrequencies s bs := rfl
        rw [descrypt_colorMapLoop, hr]
        unfold colorMap
        have hcn : descrypt.colors_needed = 254 := rfl
        rw [hcn]
        cases colorMapLoop 254 pal 0 (blockFrequencies s bs) [] with
        | error e => rfl
        | ok cm =>
          simp only
          rw [descrypt_pixelData]
          cases pixelData bs cm 16 with
          | error e => rfl
          | ok px =>
            simp only
            unfold descrypt.canvas height render width
            by_cases h0 : Nat.sqrt px.length = 0
            · rw [if_pos h0, if_pos h0]
            · rw [if_neg h0, if_neg h0]
              by_cases hr : px.length % Nat.sqrt px.length ≠ 0
              · rw [if_pos hr, if_pos hr]
                simp only [descrypt_drawLoop]
              · rw [if_neg hr, if_neg hr]
                simp only [descrypt_drawLoop]
  refine ⟨hmain, ?_⟩
  intro img himg
  exact ⟨img, by rw [← hmain]; exact himg, rfl, rfl, rfl⟩

end AesEcb
